import Mathlib

/-!
# N-Queens local search (`Busca local/nqueen.go`)

A shallow embedding of the board state, its safety / fitness evaluation, the
neighbourhood generator and the two search drivers, followed by the properties
proved about them.

Conventions of the embedding:

* Go's `int` is the 64-bit two's-complement integer.  Values are carried as
  `Int`; an arithmetic result that may leave the 64-bit range is passed through
  `wrapInt`.  Slice lengths, loop indices bounded by a slice length, and the
  fitness counter (bounded by a slice length) cannot overflow, because a slice
  of `int` has far fewer than `2^60` elements.
* A `*NQueenState` is carried by value; a function that writes the `Fitness`
  cache through the pointer returns the updated state(s).
* A run-time panic (index out of range, division by zero, `Intn` on a
  non-positive bound) is `none` / `Outcome.panicked`.
* The pseudo-random generator is a parameter: `intn seed n` is the raw draw
  behind `rand.New(rand.NewSource(seed)).Intn(n)`, reduced modulo `n`.
-/

namespace NQueen

/-- Smallest value of a 64-bit `int`. -/
def minInt : Int := -9223372036854775808

/-- Largest value of a 64-bit `int`. -/
def maxInt : Int := 9223372036854775807

/-- Two's-complement wrap-around of 64-bit `int` arithmetic. -/
def wrapInt (x : Int) : Int :=
  (x + 9223372036854775808) % 18446744073709551616 - 9223372036854775808

/-- The struct `NQueenState`. -/
structure NQueenState where
  Positions : List Int
  Size : Int
  Fitness : Int
deriving DecidableEq, Repr

/-- `NewNQueenState`: `Size = len(state)`, `Fitness` keeps its zero value. -/
def NewNQueenState (state : List Int) : NQueenState :=
  { Positions := state, Size := state.length, Fitness := 0 }

/-- The loop `for i := 0; i < queen; i += 1` of `IsSafe`, with `n` iterations
left and the loop variable at `i`.  `none` is the index-out-of-range panic of
`Me.Positions[i]`. -/
def IsSafeLoop (Me : NQueenState) (queen row : Int) : Nat → Nat → Option Bool
  | 0, _ => some true
  | n + 1, i =>
    match Me.Positions[i]? with
    | none => none
    | some val =>
      if val = row ∨
         val = wrapInt (row - (queen - i)) ∨
         val = wrapInt (row + (queen - i)) then
        some false
      else IsSafeLoop Me queen row n (i + 1)

/-- `IsSafe(queen, row)`: the loop runs `queen` times (not at all when `queen`
is negative). -/
def NQueenState.IsSafe (Me : NQueenState) (queen row : Int) : Option Bool :=
  IsSafeLoop Me queen row queen.toNat 0

/-- The loop `for i, val := range Me.Positions` of `IsSolution`, on the part of
the slice still to visit, the first of which has index `i`. -/
def IsSolutionLoop (Me : NQueenState) : List Int → Nat → Option Bool
  | [], _ => some true
  | val :: rest, i =>
    match Me.IsSafe i val with
    | none => none
    | some false => some false
    | some true => IsSolutionLoop Me rest (i + 1)

/-- `IsSolution()`. -/
def NQueenState.IsSolution (Me : NQueenState) : Option Bool :=
  IsSolutionLoop Me Me.Positions 0

/-- The slice built in the inner loop body of `GetNeighbors`:
`make([]int, Me.Size)`, `copy(state, Me.Positions)`, `state[i] = j`. -/
def neighborSlice (Me : NQueenState) (i : Nat) (j : Int) : List Int :=
  ((Me.Positions.take Me.Size.toNat) ++
    List.replicate (Me.Size.toNat - Me.Positions.length) 0).set i j

/-- `GetNeighbors()`: `i` runs over `0 .. Size-1`, and for each `i` the row
`j` runs over `1 .. Size`. -/
def NQueenState.GetNeighbors (Me : NQueenState) : List NQueenState :=
  (List.range Me.Size.toNat).flatMap fun (i : Nat) =>
    (List.range Me.Size.toNat).map fun (j : Nat) =>
      NewNQueenState (neighborSlice Me i ((j : Int) + 1))

/-- The loop of `GetFitness`, carrying the running value of `Me.Fitness`. -/
def GetFitnessLoop (Me : NQueenState) : List Int → Nat → Int → Option Int
  | [], _, fit => some fit
  | val :: rest, i, fit =>
    match Me.IsSafe i val with
    | none => none
    | some true => GetFitnessLoop Me rest (i + 1) (fit + 1)
    | some false => GetFitnessLoop Me rest (i + 1) fit

/-- `GetFitness()`: the returned value together with the state as left behind
(the `Fitness` field is written through the pointer). -/
def NQueenState.GetFitness (Me : NQueenState) : Option (Int × NQueenState) :=
  if Me.Fitness = 0 then
    match GetFitnessLoop Me Me.Positions 0 Me.Fitness with
    | none => none
    | some fit => some (fit, { Me with Fitness := fit })
  else some (Me.Fitness, Me)

/-- The loop of `GetMaxFitness`, carrying `max`; it returns the final `max`
and the visited states as left behind by `GetFitness`.  The pointers of the
slice are taken to be distinct objects, as those built by `GetNeighbors`
are. -/
def GetMaxFitnessLoop : List NQueenState → Int → Option (Int × List NQueenState)
  | [], max => some (max, [])
  | val :: rest, max =>
    match val.GetFitness with
    | none => none
    | some (fit, val1) =>
      match GetMaxFitnessLoop rest (if fit > max then val1.Fitness else max) with
      | none => none
      | some (m, rest1) => some (m, val1 :: rest1)

/-- `GetMaxFitness(states)`: `states[0]` panics on the empty slice; `max`
starts from the raw `Fitness` field of the first state. -/
def GetMaxFitness (states : List NQueenState) : Option (Int × List NQueenState) :=
  match states with
  | [] => none
  | first :: _ => GetMaxFitnessLoop states first.Fitness

/-- `GetBestStates(states)`: the states whose (raw) `Fitness` field equals
`max`, read after `GetMaxFitness` has filled the caches. -/
def GetBestStates (states : List NQueenState) : Option (List NQueenState) :=
  match GetMaxFitness states with
  | none => none
  | some (max, states1) => some (states1.filter fun val => val.Fitness = max)

/-- How a run of a search driver ends: it returns, it panics, or the fuel
given to the model runs out while the loop is still going. -/
inductive Outcome (α : Type) where
  | returned (a : α)
  | panicked
  | unfinished
deriving DecidableEq, Repr

/-- The `for` loop of `HillClimbAlgorithm`, run for at most `fuel`
iterations. -/
def HillClimbLoop (intn : Int → Nat → Nat) :
    Nat → NQueenState → Int → Outcome NQueenState
  | 0, _, _ => .unfinished
  | fuel + 1, current, seed =>
    match GetBestStates current.GetNeighbors with
    | none => .panicked
    | some bestStates =>
      if bestStates.length = 0 then .panicked
      else
        match bestStates[intn seed bestStates.length % bestStates.length]? with
        | none => .panicked
        | some neighbor =>
          match neighbor.IsSolution with
          | none => .panicked
          | some true => .returned neighbor
          | some false => HillClimbLoop intn fuel neighbor (wrapInt (seed + 1))

/-- `HillClimbAlgorithm(initialState)`, run for at most `fuel` iterations. -/
def HillClimbAlgorithm (intn : Int → Nat → Nat) (fuel : Nat)
    (initialState : List Int) : Outcome NQueenState :=
  HillClimbLoop intn fuel (NewNQueenState initialState) 0

/-- The local variables of `SimulatedAnnelingAlgorithm` at the head of its
loop.  `bestIsCurrent` records that `best` and `current` hold the same
pointer, in which case a write to `current.Fitness` is also seen through
`best`. -/
structure AnnealVars where
  current : NQueenState
  best : NQueenState
  bestIsCurrent : Bool
  k : Int
deriving DecidableEq, Repr

/-- The loop condition `!current.IsSolution() && k < kmax`. -/
def AnnealContinue (kmax : Int) (v : AnnealVars) : Option Bool :=
  match v.current.IsSolution with
  | none => none
  | some true => some false
  | some false => some (decide (v.k < kmax))

/-- One execution of the loop body of `SimulatedAnnelingAlgorithm`.
`accept k n aux` stands for `math.Exp(aux) > r.Float64()`, where `r` is the
generator seeded with `k` from which `Intn(n)` has been drawn before. -/
def AnnealBody (intn : Int → Nat → Nat) (accept : Int → Nat → Int → Bool)
    (kmax : Int) (v : AnnealVars) : Option AnnealVars :=
  match v.current.GetFitness with
  | none => none
  | some (fit, current) =>
    if kmax = 0 then none
    else
      let temp := wrapInt (fit.tdiv kmax)
      let best := if v.bestIsCurrent then current else v.best
      match GetBestStates current.GetNeighbors with
      | none => none
      | some bestStates =>
        if bestStates.length = 0 then none
        else
          match bestStates[intn v.k bestStates.length % bestStates.length]? with
          | none => none
          | some neighbor =>
            if current.Fitness ≤ neighbor.Fitness then
              if best.Fitness ≤ neighbor.Fitness then
                some { current := neighbor, best := neighbor,
                       bestIsCurrent := true, k := v.k + 1 }
              else
                some { current := neighbor, best := best,
                       bestIsCurrent := false, k := v.k + 1 }
            else if temp = 0 then none
            else if accept v.k bestStates.length
                (wrapInt (current.Fitness - wrapInt (neighbor.Fitness.tdiv temp))) then
              some { current := neighbor, best := best,
                     bestIsCurrent := false, k := v.k + 1 }
            else
              some { current := current, best := best,
                     bestIsCurrent := v.bestIsCurrent, k := v.k + 1 }

/-- The loop of `SimulatedAnnelingAlgorithm`, run for at most `fuel`
iterations; it returns the variables as they are when the loop is left. -/
def AnnealLoop (intn : Int → Nat → Nat) (accept : Int → Nat → Int → Bool)
    (kmax : Int) : Nat → AnnealVars → Outcome AnnealVars
  | 0, v =>
    match AnnealContinue kmax v with
    | none => .panicked
    | some true => .unfinished
    | some false => .returned v
  | fuel + 1, v =>
    match AnnealContinue kmax v with
    | none => .panicked
    | some false => .returned v
    | some true =>
      match AnnealBody intn accept kmax v with
      | none => .panicked
      | some v1 => AnnealLoop intn accept kmax fuel v1

/-- The variables of `SimulatedAnnelingAlgorithm` before the loop. -/
def AnnealInit (initialState : List Int) : AnnealVars :=
  { current := NewNQueenState initialState, best := NewNQueenState initialState,
    bestIsCurrent := true, k := 0 }

/-- The run of `SimulatedAnnelingAlgorithm(initialState)` up to the exit of
its loop, for at most `fuel` iterations. -/
def AnnealRun (intn : Int → Nat → Nat) (accept : Int → Nat → Int → Bool)
    (fuel : Nat) (initialState : List Int) : Outcome AnnealVars :=
  AnnealLoop intn accept (10 * (NewNQueenState initialState).Size) fuel
    (AnnealInit initialState)

/-- `SimulatedAnnelingAlgorithm(initialState)`: `return best`. -/
def SimulatedAnnelingAlgorithm (intn : Int → Nat → Nat)
    (accept : Int → Nat → Int → Bool) (fuel : Nat) (initialState : List Int) :
    Outcome NQueenState :=
  match AnnealRun intn accept fuel initialState with
  | .returned v => .returned v.best
  | .panicked => .panicked
  | .unfinished => .unfinished

/-- The variables of the annealing loop after `j` executions of its body,
started from `v`; `none` when the loop has ended or panicked before. -/
def AnnealVarsAt (intn : Int → Nat → Nat) (accept : Int → Nat → Int → Bool)
    (kmax : Int) : Nat → AnnealVars → Option AnnealVars
  | 0, v => some v
  | j + 1, v =>
    match AnnealContinue kmax v with
    | some true =>
      match AnnealBody intn accept kmax v with
      | none => none
      | some v1 => AnnealVarsAt intn accept kmax j v1
    | _ => none

/-- The variables of `SimulatedAnnelingAlgorithm(initialState)` after `j`
executions of its loop body; `none` when the loop has ended or panicked
before. -/
def AnnealRunAt (intn : Int → Nat → Nat) (accept : Int → Nat → Int → Bool)
    (initialState : List Int) (j : Nat) : Option AnnealVars :=
  AnnealVarsAt intn accept (10 * (NewNQueenState initialState).Size) j
    (AnnealInit initialState)

/-- The initial board built by `main`: `size` queens, all on row 1. -/
def allOnes (size : Nat) : List Int := List.replicate size 1

/-- The test made against column `i` (holding `val`) in the loop body of
`IsSafe(queen, row)`. -/
abbrev hits (queen row : Int) (i : Nat) (val : Int) : Prop :=
  val = row ∨ val = wrapInt (row - (queen - i)) ∨ val = wrapInt (row + (queen - i))

/-- The columns paired with their rows, as `range Me.Positions` yields them,
for which `IsSafe` returns true. -/
def safeColumns (Me : NQueenState) : List (Nat × Int) :=
  Me.Positions.enum.filter fun p => decide (Me.IsSafe p.1 p.2 = some true)

/-- The number of safe columns, as an `int`. -/
def countSafe (Me : NQueenState) : Int := (safeColumns Me).length

/-- The state with the number of its safe columns written to `Fitness`. -/
def withFitness (Me : NQueenState) : NQueenState :=
  { Me with Fitness := countSafe Me }

/-- A board of `N` columns as the searches build them: `Size` is `N`, there
are `N` positions, and every row lies in `1..N`. -/
def boardOf (N : Nat) (Me : NQueenState) : Prop :=
  Me.Size = N ∧ Me.Positions.length = N ∧ ∀ val ∈ Me.Positions, 1 ≤ val ∧ val ≤ N

/-- The `Fitness` field is either still at its zero value or holds the number
of safe columns. -/
def cacheOK (Me : NQueenState) : Prop :=
  Me.Fitness = 0 ∨ Me.Fitness = countSafe Me

/-- What holds of the variables of the annealing loop at its head, on a board
of `N` columns. -/
def AnnealInv (N : Nat) (v : AnnealVars) : Prop :=
  boardOf N v.current ∧ cacheOK v.current ∧ v.best = v.current ∧
    v.bestIsCurrent = true ∧ 0 ≤ v.k

/-- The value `GetFitness()` returns, when it returns. -/
def fitnessValue (Me : NQueenState) : Option Int :=
  Me.GetFitness.map Prod.fst

/-- The first half of the loop body of `SimulatedAnnelingAlgorithm`, up to the
choice of `neighbor`: the value of `temp`, `current` as `GetFitness()` leaves
it, the picked `neighbor`, and `len(bestStates)`. -/
def AnnealPick (intn : Int → Nat → Nat) (kmax : Int) (v : AnnealVars) :
    Option (Int × NQueenState × NQueenState × Nat) :=
  match v.current.GetFitness with
  | none => none
  | some (fit, current) =>
    if kmax = 0 then none
    else
      match GetBestStates current.GetNeighbors with
      | none => none
      | some bestStates =>
        if bestStates.length = 0 then none
        else
          match bestStates[intn v.k bestStates.length % bestStates.length]? with
          | none => none
          | some neighbor =>
            some (wrapInt (fit.tdiv kmax), current, neighbor, bestStates.length)

/-- The loop body, entered with the variables `v`, takes the branch of the
strictly worse neighbour with `temp == 0`, where `neighbor.Fitness / temp`
divides by zero. -/
def AnnealDividesByZero (intn : Int → Nat → Nat) (kmax : Int) (v : AnnealVars) : Prop :=
  ∃ (temp : Int) (current neighbor : NQueenState) (n : Nat),
    AnnealPick intn kmax v = some (temp, current, neighbor, n) ∧
    ¬ current.Fitness ≤ neighbor.Fitness ∧ temp = 0

/-- A state of `N` columns whose cache is empty or right. -/
def sizedOK (N : Nat) (Me : NQueenState) : Prop :=
  Me.Size = N ∧ Me.Positions.length = N ∧ cacheOK Me

/-- The queens of columns `i` and `c` stand on one row or on one diagonal. -/
def sharesLine (pos : List Int) (i c : Nat) : Bool :=
  decide (pos.getD i 0 = pos.getD c 0 ∨
    |pos.getD i 0 - pos.getD c 0| = |(c : Int) - (i : Int)|)

/-- The queen of column `c` is attacked by no other queen of the board,
earlier or later. -/
def notAttackedByAny (pos : List Int) (c : Nat) : Bool :=
  (List.range pos.length).all fun (i : Nat) => i == c || !sharesLine pos i c

/-- The queen of column `c` is attacked by no queen of an earlier column. -/
def notAttackedByEarlier (pos : List Int) (c : Nat) : Bool :=
  (List.range c).all fun (i : Nat) => !sharesLine pos i c

/-! ## Safety of a square -/

theorem wrapInt_eq_self {x : Int} (h1 : minInt ≤ x) (h2 : x ≤ maxInt) : wrapInt x = x := by
  unfold minInt at h1
  unfold maxInt at h2
  unfold wrapInt
  omega

theorem IsSafeLoop_succ_some (Me : NQueenState) (queen row : Int) (n i : Nat) (val : Int)
    (hv : Me.Positions[i]? = some val) :
    IsSafeLoop Me queen row (n + 1) i =
      if hits queen row i val then some false else IsSafeLoop Me queen row n (i + 1) := by
  simp only [IsSafeLoop, hv]

theorem IsSafeLoop_isSome (Me : NQueenState) (queen row : Int) :
    ∀ (n i : Nat), i + n ≤ Me.Positions.length →
      ∃ b, IsSafeLoop Me queen row n i = some b := by
  intro n
  induction n with
  | zero => intro i _; exact ⟨true, rfl⟩
  | succ n ih =>
    intro i h
    have hi : i < Me.Positions.length := by omega
    rw [IsSafeLoop_succ_some Me queen row n i _ (List.getElem?_eq_getElem hi)]
    split
    · exact ⟨false, rfl⟩
    · exact ih (i + 1) (by omega)

theorem IsSafeLoop_eq_true_iff (Me : NQueenState) (queen row : Int) :
    ∀ (n i : Nat), i + n ≤ Me.Positions.length →
      (IsSafeLoop Me queen row n i = some true ↔
        ∀ k val, i ≤ k → k < i + n → Me.Positions[k]? = some val → ¬ hits queen row k val) := by
  intro n
  induction n with
  | zero =>
    intro i _
    constructor
    · intro _ k val h1 h2; omega
    · intro _; rfl
  | succ n ih =>
    intro i h
    have hi : i < Me.Positions.length := by omega
    have hv := List.getElem?_eq_getElem hi
    rw [IsSafeLoop_succ_some Me queen row n i _ hv]
    by_cases hh : hits queen row i Me.Positions[i]
    · rw [if_pos hh]
      constructor
      · intro hc; cases hc
      · intro hall; exact absurd hh (hall i _ (le_refl i) (by omega) hv)
    · rw [if_neg hh, ih (i + 1) (by omega)]
      constructor
      · intro hall k val h1 h2 hk
        rcases Nat.eq_or_lt_of_le h1 with heq | hlt
        · subst heq
          rw [hv] at hk
          cases hk
          exact hh
        · exact hall k val hlt (by omega) hk
      · intro hall k val h1 h2 hk
        exact hall k val (by omega) (by omega) hk

/-- Within the slice, `IsSafe` does not panic. -/
theorem IsSafe_isSome (Me : NQueenState) (queen row : Int)
    (h : queen ≤ Me.Positions.length) : ∃ b, Me.IsSafe queen row = some b := by
  unfold NQueenState.IsSafe
  apply IsSafeLoop_isSome
  omega

theorem IsSafe_eq_true_iff (Me : NQueenState) (queen row : Int)
    (h : queen ≤ Me.Positions.length) :
    Me.IsSafe queen row = some true ↔
      ∀ (k : Nat) (val : Int), (k : Int) < queen → Me.Positions[k]? = some val →
        ¬ hits queen row k val := by
  unfold NQueenState.IsSafe
  rw [IsSafeLoop_eq_true_iff Me queen row queen.toNat 0 (by omega)]
  constructor
  · intro hall k val hk hv
    exact hall k val (Nat.zero_le k) (by omega) hv
  · intro hall k val _ hk hv
    exact hall k val (by omega) hv

theorem IsSafe_eq_false_iff (Me : NQueenState) (queen row : Int)
    (h : queen ≤ Me.Positions.length) :
    Me.IsSafe queen row = some false ↔
      ∃ (k : Nat) (val : Int), (k : Int) < queen ∧ Me.Positions[k]? = some val ∧
        hits queen row k val := by
  have ht := IsSafe_eq_true_iff Me queen row h
  obtain ⟨b, hb⟩ := IsSafe_isSome Me queen row h
  cases b with
  | true =>
    rw [hb]
    constructor
    · intro hc; cases hc
    · rintro ⟨k, val, hk, hv, hh⟩
      exact absurd hh (ht.mp hb k val hk hv)
  | false =>
    rw [hb]
    constructor
    · intro _
      by_contra hne
      have : Me.IsSafe queen row = some true := by
        rw [ht]
        intro k val hk hv hh
        exact hne ⟨k, val, hk, hv, hh⟩
      rw [hb] at this
      cases this
    · intro _; rfl

/-- When `row ± queen` stays inside the 64-bit range, the test of the loop
body is the row / diagonal test on mathematical integers. -/
theorem hits_iff_attack {queen row : Int} {k : Nat} (val : Int) (hk : (k : Int) < queen)
    (hlo : minInt ≤ row - queen) (hhi : row + queen ≤ maxInt) :
    hits queen row k val ↔ (val = row ∨ |val - row| = queen - k) := by
  have h1 : wrapInt (row - (queen - k)) = row - (queen - k) :=
    wrapInt_eq_self (by omega) (by unfold maxInt at *; unfold minInt at *; omega)
  have h2 : wrapInt (row + (queen - k)) = row + (queen - k) :=
    wrapInt_eq_self (by unfold maxInt at *; unfold minInt at *; omega) (by omega)
  unfold hits
  rw [h1, h2]
  constructor
  · rintro (h | h | h)
    · exact Or.inl h
    · right; rw [abs_eq (by omega)]; right; omega
    · right; rw [abs_eq (by omega)]; left; omega
  · rintro (h | h)
    · exact Or.inl h
    · rw [abs_eq (by omega)] at h
      rcases h with h | h
      · right; right; omega
      · right; left; omega

/-! ## The loops over the columns -/

theorem IsSolutionLoop_eq (Me : NQueenState) :
    ∀ (rest : List Int) (i : Nat), i + rest.length ≤ Me.Positions.length →
      IsSolutionLoop Me rest i =
        some ((rest.enumFrom i).all fun p => decide (Me.IsSafe p.1 p.2 = some true)) := by
  intro rest
  induction rest with
  | nil => intro i _; rfl
  | cons val rest ih =>
    intro i h
    simp only [List.length_cons] at h
    obtain ⟨b, hb⟩ := IsSafe_isSome Me i val (by omega)
    cases b with
    | true => simp [IsSolutionLoop, hb, ih (i + 1) (by omega)]
    | false => simp [IsSolutionLoop, hb]

theorem GetFitnessLoop_eq (Me : NQueenState) :
    ∀ (rest : List Int) (i : Nat) (fit : Int), i + rest.length ≤ Me.Positions.length →
      GetFitnessLoop Me rest i fit =
        some (fit + (((rest.enumFrom i).filter
          fun p => decide (Me.IsSafe p.1 p.2 = some true)).length : Nat)) := by
  intro rest
  induction rest with
  | nil => intro i fit _; simp [GetFitnessLoop]
  | cons val rest ih =>
    intro i fit h
    simp only [List.length_cons] at h
    obtain ⟨b, hb⟩ := IsSafe_isSome Me i val (by omega)
    cases b with
    | true =>
      simp only [GetFitnessLoop, hb, ih (i + 1) (fit + 1) (by omega), List.enumFrom_cons,
        List.filter_cons, decide_True, if_true, List.length_cons]
      congr 1
      push_cast
      ring
    | false =>
      simp [GetFitnessLoop, hb, ih (i + 1) fit (by omega)]

theorem IsSolution_eq (Me : NQueenState) :
    Me.IsSolution =
      some (Me.Positions.enum.all fun p => decide (Me.IsSafe p.1 p.2 = some true)) := by
  unfold NQueenState.IsSolution List.enum
  exact IsSolutionLoop_eq Me Me.Positions 0 (by omega)

theorem IsSolution_eq_true_iff (Me : NQueenState) :
    Me.IsSolution = some true ↔
      ∀ (j : Nat) (val : Int), Me.Positions[j]? = some val → Me.IsSafe j val = some true := by
  rw [IsSolution_eq]
  simp only [Option.some.injEq, List.all_eq_true, decide_eq_true_eq]
  constructor
  · intro h j val hj
    exact h (j, val) (List.mk_mem_enum_iff_getElem?.mpr hj)
  · intro h p hp
    exact h p.1 p.2 (List.mem_enum_iff_getElem?.mp hp)

theorem GetFitness_of_zero (Me : NQueenState) (h : Me.Fitness = 0) :
    Me.GetFitness =
      some (((safeColumns Me).length : Int), { Me with Fitness := (safeColumns Me).length }) := by
  unfold NQueenState.GetFitness
  rw [if_pos h, GetFitnessLoop_eq Me Me.Positions 0 Me.Fitness (by omega), h]
  simp [safeColumns, List.enum]

theorem GetFitness_of_ne_zero (Me : NQueenState) (h : Me.Fitness ≠ 0) :
    Me.GetFitness = some (Me.Fitness, Me) := by
  unfold NQueenState.GetFitness
  rw [if_neg h]

theorem safeColumns_length_le (Me : NQueenState) :
    (safeColumns Me).length ≤ Me.Positions.length := by
  unfold safeColumns
  calc _ ≤ Me.Positions.enum.length := List.length_filter_le _ _
    _ = Me.Positions.length := List.enum_length

theorem safeColumns_length_eq_iff (Me : NQueenState) :
    (safeColumns Me).length = Me.Positions.length ↔ Me.IsSolution = some true := by
  rw [IsSolution_eq]
  unfold safeColumns
  rw [show Me.Positions.length = Me.Positions.enum.length from List.enum_length.symm,
    List.filter_length_eq_length]
  simp

/-- The safe columns are read off `Positions` alone. -/
theorem safeColumns_congr (Me Other : NQueenState) (h : Other.Positions = Me.Positions) :
    safeColumns Other = safeColumns Me := by
  unfold safeColumns NQueenState.IsSafe
  rw [h]
  congr 1
  funext p
  congr 2
  generalize p.1 = q
  have : ∀ (n i : Nat) (queen row : Int),
      IsSafeLoop Other queen row n i = IsSafeLoop Me queen row n i := by
    intro n
    induction n with
    | zero => intros; rfl
    | succ n ih => intro i queen row; simp only [IsSafeLoop, h, ih]
  exact this _ _ _ _

/-! ## Claims on `IsSafe`, `IsSolution` and `GetFitness` -/

/-- `IsSolution` on rows for which `row ± column` is representable: it is
true exactly when no two queens share a row or a diagonal. -/
theorem IsSolution_spec_of_range (Me : NQueenState)
    (hrange : ∀ (j : Nat) (val : Int), Me.Positions[j]? = some val →
      minInt ≤ val - j ∧ val + j ≤ maxInt) :
    (∃ b, Me.IsSolution = some b) ∧
    (Me.IsSolution = some true ↔
      ∀ (i j : Nat) (vi vj : Int), i < j →
        Me.Positions[i]? = some vi → Me.Positions[j]? = some vj →
          vi ≠ vj ∧ |vi - vj| ≠ (j : Int) - i) := by
  refine ⟨⟨_, IsSolution_eq Me⟩, ?_⟩
  rw [IsSolution_eq_true_iff]
  have hlen : ∀ (j : Nat) (val : Int), Me.Positions[j]? = some val →
      (j : Int) ≤ Me.Positions.length := by
    intro j val hj
    have := (List.getElem?_eq_some.mp hj).1
    omega
  constructor
  · intro h i j vi vj hij hi hj
    have hs := (IsSafe_eq_true_iff Me j vj (hlen j vj hj)).mp (h j vj hj) i vi (by omega) hi
    rw [hits_iff_attack vi (by omega) (hrange j vj hj).1 (hrange j vj hj).2] at hs
    exact ⟨fun e => hs (Or.inl e), fun e => hs (Or.inr e)⟩
  · intro h j vj hj
    rw [IsSafe_eq_true_iff Me j vj (hlen j vj hj)]
    intro i vi hij hi
    rw [hits_iff_attack vi hij (hrange j vj hj).1 (hrange j vj hj).2]
    have := h i j vi vj (by omega) hi hj
    rintro (e | e)
    · exact this.1 e
    · exact this.2 e

/-- C1 (as amended).  For a board state whose rows stay clear of the 64-bit
bounds by their column index (`row - column` and `row + column` are
representable), `IsSolution` returns, and it returns true exactly when no two
queens share a row and no two queens share a diagonal. -/
theorem IsSolution_iff_no_shared_row_or_diagonal (Me : NQueenState)
    (hrange : ∀ (j : Nat) (val : Int), Me.Positions[j]? = some val →
      minInt ≤ val - j ∧ val + j ≤ maxInt) :
    (∃ b, Me.IsSolution = some b) ∧
    (Me.IsSolution = some true ↔
      ∀ (i j : Nat) (vi vj : Int), i < j →
        Me.Positions[i]? = some vi → Me.Positions[j]? = some vj →
          vi ≠ vj ∧ |vi - vj| ≠ (j : Int) - i) :=
  IsSolution_spec_of_range Me hrange

/-- C1, witness: the board `[2, 4, 1, 3]`. -/
theorem IsSolution_iff_no_shared_row_or_diagonal_witness :
    (∃ b, (NewNQueenState [2, 4, 1, 3]).IsSolution = some b) ∧
    ((NewNQueenState [2, 4, 1, 3]).IsSolution = some true ↔
      ∀ (i j : Nat) (vi vj : Int), i < j →
        (NewNQueenState [2, 4, 1, 3]).Positions[i]? = some vi →
        (NewNQueenState [2, 4, 1, 3]).Positions[j]? = some vj →
          vi ≠ vj ∧ |vi - vj| ≠ (j : Int) - i) :=
  IsSolution_iff_no_shared_row_or_diagonal (NewNQueenState [2, 4, 1, 3]) (by
    intro j val hj
    have hlt : j < 4 := (List.getElem?_eq_some.mp hj).1
    unfold minInt maxInt
    interval_cases j <;> simp [NewNQueenState] at hj <;> subst hj <;> decide)

/-- C1, counterexample to the claim as stated (any integer rows): on the board
`[maxInt, minInt]` no two queens share a row or a diagonal, yet `IsSolution`
returns false, because `row - 1` wraps around in `IsSafe`. -/
theorem IsSolution_fails_on_extreme_rows :
    (NewNQueenState [maxInt, minInt]).IsSolution = some false ∧
    (∀ (i j : Nat) (vi vj : Int), i < j →
        (NewNQueenState [maxInt, minInt]).Positions[i]? = some vi →
        (NewNQueenState [maxInt, minInt]).Positions[j]? = some vj →
          vi ≠ vj ∧ |vi - vj| ≠ (j : Int) - i) := by
  refine ⟨by decide, ?_⟩
  intro i j vi vj hij hi hj
  have hlt : j < 2 := (List.getElem?_eq_some.mp hj).1
  have hj1 : j = 1 := by omega
  have hi0 : i = 0 := by omega
  subst hj1 hi0
  simp [NewNQueenState] at hi hj
  subst hi hj
  decide

/-- C2 (as amended).  For a board state with `N` columns, a column `c` with
`0 ≤ c ≤ N` and a row `r` such that `r - c` and `r + c` are representable in
64 bits, `IsSafe(c, r)` returns, and it returns false exactly when an earlier
column `i < c` holds a queen on row `r` or on a diagonal through `(c, r)`;
the result is the same on every board with the same columns before `c`, and
`IsSafe(0, r)` is true. -/
theorem IsSafe_false_iff_earlier_attack (Me : NQueenState) (c r : Int)
    (h0 : 0 ≤ c) (hN : c ≤ Me.Positions.length)
    (hlo : minInt ≤ r - c) (hhi : r + c ≤ maxInt) :
    (∃ b, Me.IsSafe c r = some b) ∧
    (Me.IsSafe c r = some false ↔
      ∃ (i : Nat) (val : Int), (i : Int) < c ∧ Me.Positions[i]? = some val ∧
        (val = r ∨ |val - r| = c - i)) ∧
    (∀ Other : NQueenState,
      Other.Positions.take c.toNat = Me.Positions.take c.toNat →
        Other.IsSafe c r = Me.IsSafe c r) ∧
    Me.IsSafe 0 r = some true := by
  refine ⟨IsSafe_isSome Me c r hN, ?_, ?_, rfl⟩
  · rw [IsSafe_eq_false_iff Me c r hN]
    constructor
    · rintro ⟨i, val, hi, hv, hh⟩
      exact ⟨i, val, hi, hv, (hits_iff_attack val hi hlo hhi).mp hh⟩
    · rintro ⟨i, val, hi, hv, hh⟩
      exact ⟨i, val, hi, hv, (hits_iff_attack val hi hlo hhi).mpr hh⟩
  · intro Other htake
    have hget : ∀ k : Nat, (k : Int) < c → Other.Positions[k]? = Me.Positions[k]? := by
      intro k hk
      have hk1 : k < c.toNat := by omega
      have e1 : (Other.Positions.take c.toNat)[k]? = Other.Positions[k]? := by
        rw [List.getElem?_take, if_pos hk1]
      have e2 : (Me.Positions.take c.toNat)[k]? = Me.Positions[k]? := by
        rw [List.getElem?_take, if_pos hk1]
      rw [← e1, ← e2, htake]
    have hlenO : c ≤ Other.Positions.length := by
      have := congrArg List.length htake
      simp only [List.length_take] at this
      omega
    obtain ⟨b, hb⟩ := IsSafe_isSome Me c r hN
    obtain ⟨b1, hb1⟩ := IsSafe_isSome Other c r hlenO
    have h1 := IsSafe_eq_true_iff Me c r hN
    have h2 := IsSafe_eq_true_iff Other c r hlenO
    have hiff : Other.IsSafe c r = some true ↔ Me.IsSafe c r = some true := by
      rw [h1, h2]
      constructor
      · intro h k val hk hv
        exact h k val hk (by rw [hget k hk]; exact hv)
      · intro h k val hk hv
        exact h k val hk (by rw [← hget k hk]; exact hv)
    rw [hb, hb1] at hiff ⊢
    cases b <;> cases b1 <;> simp_all

/-- C2, witness: column 2 and row 3 on the board `[2, 4, 1, 3]`. -/
theorem IsSafe_false_iff_earlier_attack_witness :
    (∃ b, (NewNQueenState [2, 4, 1, 3]).IsSafe 2 3 = some b) ∧
    ((NewNQueenState [2, 4, 1, 3]).IsSafe 2 3 = some false ↔
      ∃ (i : Nat) (val : Int), (i : Int) < 2 ∧
        (NewNQueenState [2, 4, 1, 3]).Positions[i]? = some val ∧
        (val = 3 ∨ |val - 3| = 2 - i)) ∧
    (∀ Other : NQueenState,
      Other.Positions.take (2 : Int).toNat =
          (NewNQueenState [2, 4, 1, 3]).Positions.take (2 : Int).toNat →
        Other.IsSafe 2 3 = (NewNQueenState [2, 4, 1, 3]).IsSafe 2 3) ∧
    (NewNQueenState [2, 4, 1, 3]).IsSafe 0 3 = some true :=
  IsSafe_false_iff_earlier_attack (NewNQueenState [2, 4, 1, 3]) 2 3
    (by decide) (by decide) (by decide) (by decide)

/-- C2, counterexample to the claim as stated (every integer row): on the
one-column board `[minInt]`, `IsSafe(1, maxInt)` is false because `row + 1`
wraps around, although column 0 is neither on row `maxInt` nor on a diagonal
through `(1, maxInt)`. -/
theorem IsSafe_fails_on_extreme_row :
    (NewNQueenState [minInt]).IsSafe 1 maxInt = some false ∧
    ¬ ∃ (i : Nat) (val : Int), (i : Int) < 1 ∧
        (NewNQueenState [minInt]).Positions[i]? = some val ∧
        (val = maxInt ∨ |val - maxInt| = 1 - i) := by
  refine ⟨by decide, ?_⟩
  rintro ⟨i, val, hi, hv, hh⟩
  have hi0 : i = 0 := by omega
  subst hi0
  simp [NewNQueenState] at hv
  subst hv
  revert hh
  decide

/-- C3.  On a freshly constructed board state `GetFitness()` returns, and the
value it returns equals the size of the board exactly when `IsSolution()` is
true. -/
theorem GetFitness_eq_Size_iff_IsSolution (state : List Int) :
    ∃ (fit : Int) (Me1 : NQueenState),
      (NewNQueenState state).GetFitness = some (fit, Me1) ∧
      (fit = (NewNQueenState state).Size ↔
        (NewNQueenState state).IsSolution = some true) := by
  refine ⟨_, _, GetFitness_of_zero (NewNQueenState state) rfl, ?_⟩
  rw [← safeColumns_length_eq_iff]
  simp [NewNQueenState]

/-- C4.  On a freshly constructed board state `GetFitness()` returns the
number of columns `c` for which `IsSafe(c, Positions[c])` holds, and a second
call, on the state now carrying the cached `Fitness`, returns the same value
and leaves the state as it is. -/
theorem GetFitness_counts_safe_columns_twice (state : List Int) :
    ∃ Me1 : NQueenState,
      (NewNQueenState state).GetFitness =
        some ((((NewNQueenState state).Positions.enum.filter fun p =>
          decide ((NewNQueenState state).IsSafe p.1 p.2 = some true)).length : Int), Me1) ∧
      Me1.GetFitness =
        some ((((NewNQueenState state).Positions.enum.filter fun p =>
          decide ((NewNQueenState state).IsSafe p.1 p.2 = some true)).length : Int), Me1) := by
  refine ⟨_, GetFitness_of_zero (NewNQueenState state) rfl, ?_⟩
  by_cases hz : ((safeColumns (NewNQueenState state)).length : Int) = 0
  · have hc := safeColumns_congr (NewNQueenState state)
      { NewNQueenState state with
        Fitness := ((safeColumns (NewNQueenState state)).length : Int) } rfl
    rw [GetFitness_of_zero _ hz, hc]
    rfl
  · rw [GetFitness_of_ne_zero _ hz]
    rfl

/-! ## The neighbourhood -/

theorem length_flatMap_range {α : Type} (f : Nat → List α) (m : Nat)
    (hf : ∀ i, (f i).length = m) :
    ∀ n, ((List.range n).flatMap f).length = n * m := by
  intro n
  induction n with
  | zero => simp
  | succ n ih =>
    rw [List.range_succ, List.flatMap_append, List.length_append, ih,
      List.flatMap_singleton, hf, Nat.succ_mul]

theorem getElem?_flatMap_range {α : Type} (f : Nat → List α) (m : Nat)
    (hf : ∀ i, (f i).length = m) :
    ∀ n c r, c < n → r < m → ((List.range n).flatMap f)[c * m + r]? = (f c)[r]? := by
  intro n
  induction n with
  | zero => intro c r hc; omega
  | succ n ih =>
    intro c r hc hr
    rw [List.range_succ, List.flatMap_append, List.flatMap_singleton]
    have hlen := length_flatMap_range f m hf n
    rcases Nat.lt_succ_iff_lt_or_eq.mp hc with hlt | heq
    · have hle : (c + 1) * m ≤ n * m := Nat.mul_le_mul_right m hlt
      rw [Nat.succ_mul] at hle
      rw [List.getElem?_append_left (by omega)]
      exact ih c r hlt hr
    · subst heq
      rw [List.getElem?_append_right (by omega), hlen, Nat.add_sub_cancel_left]

theorem set_getElem_same (l : List Int) (i : Nat) (h : i < l.length) :
    l.set i l[i] = l := by
  apply List.ext_getElem?
  intro k
  by_cases hk : i = k
  · subst hk
    simp [h]
  · rw [List.getElem?_set_ne hk]

theorem neighborSlice_of_size (Me : NQueenState) (h : Me.Size = Me.Positions.length)
    (i : Nat) (j : Int) : neighborSlice Me i j = Me.Positions.set i j := by
  unfold neighborSlice
  rw [h]
  simp

theorem GetNeighbors_of_size (Me : NQueenState) (h : Me.Size = Me.Positions.length) :
    Me.GetNeighbors =
      (List.range Me.Positions.length).flatMap fun (i : Nat) =>
        (List.range Me.Positions.length).map fun (j : Nat) =>
          NewNQueenState (Me.Positions.set i ((j : Int) + 1)) := by
  unfold NQueenState.GetNeighbors
  simp only [neighborSlice_of_size Me h]
  rw [h]
  simp

theorem mem_GetNeighbors (Me : NQueenState) (h : Me.Size = Me.Positions.length)
    (nb : NQueenState) :
    nb ∈ Me.GetNeighbors ↔
      ∃ i j : Nat, i < Me.Positions.length ∧ j < Me.Positions.length ∧
        nb = NewNQueenState (Me.Positions.set i ((j : Int) + 1)) := by
  rw [GetNeighbors_of_size Me h]
  simp only [List.mem_flatMap, List.mem_range, List.mem_map]
  constructor
  · rintro ⟨i, hi, j, hj, rfl⟩
    exact ⟨i, j, hi, hj, rfl⟩
  · rintro ⟨i, j, hi, hj, rfl⟩
    exact ⟨i, hi, j, hj, rfl⟩

/-- C8.  For a board state of size `N` (`Size` is the number of columns, as
`NewNQueenState` sets it), `GetNeighbors()` returns exactly `N * N` states,
each of size `N` and with a fresh `Fitness`, and for every column `c < N` and
row `r` in `1..N` the state at index `c * N + (r - 1)` has the positions of the
parent with column `c` set to `r`. -/
theorem GetNeighbors_column_major (Me : NQueenState)
    (hsize : Me.Size = Me.Positions.length) :
    Me.GetNeighbors.length = Me.Positions.length * Me.Positions.length ∧
    (∀ nb ∈ Me.GetNeighbors,
      nb.Size = Me.Size ∧ nb.Positions.length = Me.Positions.length ∧ nb.Fitness = 0) ∧
    (∀ c r : Nat, c < Me.Positions.length → 1 ≤ r → r ≤ Me.Positions.length →
      ∃ nb, Me.GetNeighbors[c * Me.Positions.length + (r - 1)]? = some nb ∧
        nb.Positions = Me.Positions.set c (r : Int) ∧
        nb.Positions[c]? = some (r : Int) ∧
        ∀ k : Nat, k ≠ c → nb.Positions[k]? = Me.Positions[k]?) := by
  refine ⟨?_, ?_, ?_⟩
  · rw [GetNeighbors_of_size Me hsize]
    exact length_flatMap_range _ _ (by simp) _
  · intro nb hnb
    obtain ⟨i, j, _, _, rfl⟩ := (mem_GetNeighbors Me hsize nb).mp hnb
    simp [NewNQueenState, hsize]
  · intro c r hc h1 hr
    refine ⟨NewNQueenState (Me.Positions.set c (r : Int)), ?_, rfl, ?_, ?_⟩
    · rw [GetNeighbors_of_size Me hsize,
        getElem?_flatMap_range _ Me.Positions.length (by simp) _ c (r - 1) hc (by omega)]
      rw [List.getElem?_map, List.getElem?_range (by omega)]
      simp only [Option.map_some']
      congr 3
      omega
    · simp [NewNQueenState, hc]
    · intro k hk
      simp [NewNQueenState, List.getElem?_set_ne (Ne.symm hk)]

/-- C8, witness: the board `[1, 1]`. -/
theorem GetNeighbors_column_major_witness :
    (NewNQueenState [1, 1]).GetNeighbors.length =
      (NewNQueenState [1, 1]).Positions.length * (NewNQueenState [1, 1]).Positions.length ∧
    (∀ nb ∈ (NewNQueenState [1, 1]).GetNeighbors,
      nb.Size = (NewNQueenState [1, 1]).Size ∧
      nb.Positions.length = (NewNQueenState [1, 1]).Positions.length ∧ nb.Fitness = 0) ∧
    (∀ c r : Nat, c < (NewNQueenState [1, 1]).Positions.length → 1 ≤ r →
      r ≤ (NewNQueenState [1, 1]).Positions.length →
      ∃ nb, (NewNQueenState [1, 1]).GetNeighbors[
          c * (NewNQueenState [1, 1]).Positions.length + (r - 1)]? = some nb ∧
        nb.Positions = (NewNQueenState [1, 1]).Positions.set c (r : Int) ∧
        nb.Positions[c]? = some (r : Int) ∧
        ∀ k : Nat, k ≠ c → nb.Positions[k]? = (NewNQueenState [1, 1]).Positions[k]?) :=
  GetNeighbors_column_major (NewNQueenState [1, 1]) (by decide)

/-- The no-op mutation: column 0 set to the row it already has. -/
theorem exists_noop_neighbor (Me : NQueenState)
    (hsize : Me.Size = Me.Positions.length) (hN : 1 ≤ Me.Positions.length)
    (hrows : ∀ val ∈ Me.Positions, 1 ≤ val ∧ val ≤ Me.Positions.length) :
    ∃ nb ∈ Me.GetNeighbors, nb.Positions = Me.Positions := by
  have h0 : 0 < Me.Positions.length := hN
  have hmem : Me.Positions[0] ∈ Me.Positions := List.getElem_mem h0
  obtain ⟨hlo, hhi⟩ := hrows _ hmem
  refine ⟨NewNQueenState (Me.Positions.set 0 Me.Positions[0]), ?_, ?_⟩
  · rw [mem_GetNeighbors Me hsize]
    refine ⟨0, (Me.Positions[0] - 1).toNat, h0, by omega, ?_⟩
    congr 2
    omega
  · exact set_getElem_same Me.Positions 0 h0

/-- C9.  For a board state of size `N ≥ 1` whose rows all lie in `1..N`,
`GetNeighbors()` contains a neighbor whose positions equal the positions of
the original state. -/
theorem GetNeighbors_contains_parent (Me : NQueenState)
    (hsize : Me.Size = Me.Positions.length) (hN : 1 ≤ Me.Positions.length)
    (hrows : ∀ val ∈ Me.Positions, 1 ≤ val ∧ val ≤ Me.Positions.length) :
    ∃ nb ∈ Me.GetNeighbors, nb.Positions = Me.Positions :=
  exists_noop_neighbor Me hsize hN hrows

/-- C9, witness: the solution `[2, 4, 1, 3]` of the 4-queens problem. -/
theorem GetNeighbors_contains_parent_witness :
    ∃ nb ∈ (NewNQueenState [2, 4, 1, 3]).GetNeighbors,
      nb.Positions = (NewNQueenState [2, 4, 1, 3]).Positions :=
  GetNeighbors_contains_parent (NewNQueenState [2, 4, 1, 3]) (by decide) (by decide)
    (by decide)

/-! ## The best neighbours -/

theorem countSafe_nonneg (Me : NQueenState) : 0 ≤ countSafe Me := by
  unfold countSafe
  omega

theorem GetFitness_fresh (Me : NQueenState) (h : Me.Fitness = 0) :
    Me.GetFitness = some (countSafe Me, withFitness Me) :=
  GetFitness_of_zero Me h

theorem fitnessValue_fresh (Me : NQueenState) (h : Me.Fitness = 0) :
    fitnessValue Me = some (countSafe Me) := by
  unfold fitnessValue
  rw [GetFitness_fresh Me h]
  rfl

theorem countSafe_withFitness (Me : NQueenState) :
    countSafe (withFitness Me) = countSafe Me := by
  unfold countSafe
  rw [safeColumns_congr Me (withFitness Me) rfl]

/-- Once the cache is filled, `GetFitness()` returns the same value and leaves
the state alone. -/
theorem GetFitness_withFitness (Me : NQueenState) :
    (withFitness Me).GetFitness = some (countSafe Me, withFitness Me) := by
  by_cases hz : countSafe Me = 0
  · have h0 : (withFitness Me).Fitness = 0 := hz
    rw [GetFitness_fresh _ h0, countSafe_withFitness]
    congr 2
    show ({ withFitness Me with Fitness := countSafe (withFitness Me) } : NQueenState) =
      withFitness Me
    rw [countSafe_withFitness Me]
    rfl
  · exact GetFitness_of_ne_zero (withFitness Me) hz

theorem fitnessValue_withFitness (Me : NQueenState) :
    fitnessValue (withFitness Me) = some (countSafe Me) := by
  unfold fitnessValue
  rw [GetFitness_withFitness]
  rfl

/-- The loop of `GetMaxFitness` on fresh states: it fills every cache and
ends with the largest of `max` and the fitness values. -/
theorem GetMaxFitnessLoop_fresh :
    ∀ (states : List NQueenState) (max : Int), (∀ s ∈ states, s.Fitness = 0) →
      ∃ m, GetMaxFitnessLoop states max = some (m, states.map withFitness) ∧
        max ≤ m ∧ (∀ s ∈ states, countSafe s ≤ m) ∧
        (m = max ∨ ∃ s ∈ states, m = countSafe s) := by
  intro states
  induction states with
  | nil =>
    intro max _
    exact ⟨max, rfl, le_refl _, by simp, Or.inl rfl⟩
  | cons val rest ih =>
    intro max hfresh
    have hval : val.Fitness = 0 := hfresh val (List.mem_cons_self _ _)
    have hrest : ∀ s ∈ rest, s.Fitness = 0 :=
      fun s hs => hfresh s (List.mem_cons_of_mem _ hs)
    obtain ⟨m, hm, hle, hall, hex⟩ :=
      ih (if countSafe val > max then (withFitness val).Fitness else max) hrest
    refine ⟨m, ?_, ?_, ?_, ?_⟩
    · simp only [GetMaxFitnessLoop, GetFitness_fresh val hval, hm, List.map_cons]
    · split at hle
      · have : (withFitness val).Fitness = countSafe val := rfl
        omega
      · exact hle
    · intro s hs
      rcases List.mem_cons.mp hs with rfl | hs
      · split at hle
        · exact hle
        · omega
      · exact hall s hs
    · rcases hex with hex | ⟨s, hs, hex⟩
      · split at hex
        · exact Or.inr ⟨val, List.mem_cons_self _ _, hex⟩
        · exact Or.inl hex
      · exact Or.inr ⟨s, List.mem_cons_of_mem _ hs, hex⟩

/-- `GetMaxFitness` on a non-empty slice of fresh states returns the largest
fitness, which one of the states has. -/
theorem GetMaxFitness_fresh (states : List NQueenState) (hne : states ≠ [])
    (hfresh : ∀ s ∈ states, s.Fitness = 0) :
    ∃ m, GetMaxFitness states = some (m, states.map withFitness) ∧
      (∀ s ∈ states, countSafe s ≤ m) ∧ ∃ s ∈ states, m = countSafe s := by
  cases states with
  | nil => exact absurd rfl hne
  | cons first rest =>
    have hfirst : first.Fitness = 0 := hfresh first (List.mem_cons_self _ _)
    obtain ⟨m, hm, hle, hall, hex⟩ := GetMaxFitnessLoop_fresh (first :: rest) first.Fitness hfresh
    refine ⟨m, hm, hall, ?_⟩
    rcases hex with hex | hex
    · refine ⟨first, List.mem_cons_self _ _, ?_⟩
      have h1 := hall first (List.mem_cons_self _ _)
      have h2 := countSafe_nonneg first
      omega
    · exact hex

theorem GetBestStates_fresh (states : List NQueenState) (hne : states ≠ [])
    (hfresh : ∀ s ∈ states, s.Fitness = 0) :
    ∃ m, GetMaxFitness states = some (m, states.map withFitness) ∧
      GetBestStates states =
        some ((states.filter fun s => decide (countSafe s = m)).map withFitness) ∧
      (∀ s ∈ states, countSafe s ≤ m) ∧ ∃ s ∈ states, m = countSafe s := by
  obtain ⟨m, hm, hall, hex⟩ := GetMaxFitness_fresh states hne hfresh
  refine ⟨m, hm, ?_, hall, hex⟩
  unfold GetBestStates
  rw [hm]
  simp only [List.filter_map]
  rfl

/-- C10.  On a non-empty sequence of freshly constructed board states,
`GetMaxFitness` and `GetBestStates` return, and the states `GetBestStates`
returns are a non-empty subsequence of the input, in the input's order, made
of exactly the states whose fitness equals the value of `GetMaxFitness`. -/
theorem GetBestStates_keeps_exactly_maximal (boards : List (List Int))
    (hne : boards ≠ []) :
    ∃ (max : Int) (states1 best : List NQueenState),
      GetMaxFitness (boards.map NewNQueenState) = some (max, states1) ∧
      GetBestStates (boards.map NewNQueenState) = some best ∧
      best ≠ [] ∧
      (best.map fun s => s.Positions).Sublist boards ∧
      (best.map fun s => s.Positions) =
        boards.filter (fun b => decide (fitnessValue (NewNQueenState b) = some max)) ∧
      (∀ s ∈ best, fitnessValue s = some max) := by
  have hne1 : boards.map NewNQueenState ≠ [] := by simpa using hne
  have hfresh : ∀ s ∈ boards.map NewNQueenState, s.Fitness = 0 := by
    intro s hs
    obtain ⟨b, _, rfl⟩ := List.mem_map.mp hs
    rfl
  obtain ⟨m, hm, hbest, _, s0, hs0, hs0m⟩ :=
    GetBestStates_fresh (boards.map NewNQueenState) hne1 hfresh
  have hpos : (((boards.map NewNQueenState).filter
      fun s => decide (countSafe s = m)).map withFitness).map (fun s => s.Positions) =
      boards.filter (fun b => decide (fitnessValue (NewNQueenState b) = some m)) := by
    rw [List.filter_map, List.map_map, List.map_map]
    have hfun : ((fun s : NQueenState => s.Positions) ∘ withFitness) ∘ NewNQueenState = id := by
      funext b
      rfl
    have hpred : ((fun s => decide (countSafe s = m)) ∘ NewNQueenState) =
        fun b => decide (fitnessValue (NewNQueenState b) = some m) := by
      funext b
      simp [fitnessValue_fresh (NewNQueenState b) rfl]
    rw [hfun, hpred, List.map_id]
  refine ⟨m, _, _, hm, hbest, ?_, ?_, hpos, ?_⟩
  · intro hnil
    have hmem : withFitness s0 ∈ ((boards.map NewNQueenState).filter
        fun s => decide (countSafe s = m)).map withFitness :=
      List.mem_map_of_mem _ (List.mem_filter.mpr ⟨hs0, by simp [hs0m]⟩)
    rw [hnil] at hmem
    cases hmem
  · rw [hpos]
    exact List.filter_sublist _
  · intro s hs
    obtain ⟨s1, hs1, rfl⟩ := List.mem_map.mp hs
    have := (List.mem_filter.mp hs1).2
    simp only [decide_eq_true_eq] at this
    rw [fitnessValue_withFitness, this]

/-- C10, witness: a solution next to the all-ones board. -/
theorem GetBestStates_keeps_exactly_maximal_witness :
    ∃ (max : Int) (states1 best : List NQueenState),
      GetMaxFitness ([[2, 4, 1, 3], [1, 1, 1, 1]].map NewNQueenState) = some (max, states1) ∧
      GetBestStates ([[2, 4, 1, 3], [1, 1, 1, 1]].map NewNQueenState) = some best ∧
      best ≠ [] ∧
      (best.map fun s => s.Positions).Sublist [[2, 4, 1, 3], [1, 1, 1, 1]] ∧
      (best.map fun s => s.Positions) =
        [[2, 4, 1, 3], [1, 1, 1, 1]].filter
          (fun b => decide (fitnessValue (NewNQueenState b) = some max)) ∧
      (∀ s ∈ best, fitnessValue s = some max) :=
  GetBestStates_keeps_exactly_maximal [[2, 4, 1, 3], [1, 1, 1, 1]] (by decide)

/-! ## Boards reached by the searches -/

theorem boardOf_allOnes (N : Nat) : boardOf N (NewNQueenState (allOnes N)) := by
  refine ⟨by simp [NewNQueenState, allOnes], by simp [NewNQueenState, allOnes], ?_⟩
  intro val hval
  have hv : val = 1 := List.eq_of_mem_replicate hval
  have hN : N ≠ 0 := by
    intro h0
    subst h0
    simp [NewNQueenState, allOnes] at hval
  subst hv
  omega

theorem boardOf_withFitness {N : Nat} {Me : NQueenState} (h : boardOf N Me) :
    boardOf N (withFitness Me) := h

theorem cacheOK_withFitness (Me : NQueenState) : cacheOK (withFitness Me) :=
  Or.inr (countSafe_withFitness Me).symm

theorem boardOf_neighbor {N : Nat} {Me nb : NQueenState} (h : boardOf N Me)
    (hnb : nb ∈ Me.GetNeighbors) : boardOf N nb ∧ nb.Fitness = 0 := by
  obtain ⟨hsize, hlen, hrows⟩ := h
  obtain ⟨i, j, hi, hj, rfl⟩ := (mem_GetNeighbors Me (by rw [hsize, hlen]) nb).mp hnb
  refine ⟨⟨by simp [NewNQueenState, hlen], by simp [NewNQueenState, hlen], ?_⟩, rfl⟩
  intro val hval
  rcases List.mem_or_eq_of_mem_set hval with hmem | heq
  · exact hrows val hmem
  · subst heq
    omega

/-- `GetFitness()` on a state whose cache is empty or right. -/
theorem GetFitness_of_cacheOK (Me : NQueenState) (h : cacheOK Me) :
    Me.GetFitness = some (countSafe Me, withFitness Me) := by
  rcases h with h0 | hc
  · exact GetFitness_fresh Me h0
  · by_cases hz : Me.Fitness = 0
    · exact GetFitness_fresh Me hz
    · rw [GetFitness_of_ne_zero Me hz, hc]
      congr 2
      show Me = { Me with Fitness := countSafe Me }
      rw [← hc]

theorem fitnessValue_of_cacheOK (Me : NQueenState) (h : cacheOK Me) :
    fitnessValue Me = some (countSafe Me) := by
  unfold fitnessValue
  rw [GetFitness_of_cacheOK Me h]
  rfl

theorem countSafe_congr (Me Other : NQueenState) (h : Other.Positions = Me.Positions) :
    countSafe Other = countSafe Me := by
  unfold countSafe
  rw [safeColumns_congr Me Other h]

/-- What the two drivers pick in an iteration on a board of `N ≥ 1` columns:
`GetBestStates` returns a non-empty slice, and the state at any index of it is
a neighbor with its cache filled, itself a board of `N` columns, whose fitness
is at least the fitness of `current`. -/
theorem pick_best_neighbor {N : Nat} (hN : 1 ≤ N) {current : NQueenState}
    (h : boardOf N current) :
    ∃ bestStates, GetBestStates current.GetNeighbors = some bestStates ∧
      bestStates.length ≠ 0 ∧
      ∀ (idx : Nat) (neighbor : NQueenState), bestStates[idx]? = some neighbor →
        boardOf N neighbor ∧ neighbor.Fitness = countSafe neighbor ∧
        countSafe current ≤ countSafe neighbor := by
  have hsize : current.Size = current.Positions.length := by rw [h.1, h.2.1]
  obtain ⟨noop, hnoop, hpos⟩ := exists_noop_neighbor current hsize (by rw [h.2.1]; exact hN)
    (by rw [h.2.1]; exact h.2.2)
  have hne : current.GetNeighbors ≠ [] := List.ne_nil_of_mem hnoop
  have hfresh : ∀ s ∈ current.GetNeighbors, s.Fitness = 0 :=
    fun s hs => (boardOf_neighbor h hs).2
  obtain ⟨m, _, hbest, hall, s0, hs0, hs0m⟩ :=
    GetBestStates_fresh current.GetNeighbors hne hfresh
  refine ⟨_, hbest, ?_, ?_⟩
  · intro hlen
    have hmem : withFitness s0 ∈ (current.GetNeighbors.filter
        fun s => decide (countSafe s = m)).map withFitness :=
      List.mem_map_of_mem _ (List.mem_filter.mpr ⟨hs0, by simp [hs0m]⟩)
    rw [List.length_eq_zero.mp hlen] at hmem
    cases hmem
  · intro idx neighbor hidx
    have hmem : neighbor ∈ (current.GetNeighbors.filter
        fun s => decide (countSafe s = m)).map withFitness :=
      List.getElem?_mem hidx
    obtain ⟨nb, hnb, rfl⟩ := List.mem_map.mp hmem
    obtain ⟨hnb1, hnb2⟩ := List.mem_filter.mp hnb
    simp only [decide_eq_true_eq] at hnb2
    refine ⟨boardOf_withFitness (boardOf_neighbor h hnb1).1,
      (countSafe_withFitness nb).symm, ?_⟩
    rw [countSafe_withFitness, hnb2, ← countSafe_congr current noop hpos]
    exact hall noop hnoop

/-! ## Hill climbing -/

/-- The neighbours of a state of size `N` have size `N`, a fresh cache, and
rows that satisfy any property shared by the parent's rows and `1..N`. -/
theorem rows_neighbor {P : Int → Prop} {N : Nat} (hP : ∀ r : Int, 1 ≤ r → r ≤ N → P r)
    {Me nb : NQueenState} (hsize : Me.Size = N) (hlen : Me.Positions.length = N)
    (hrows : ∀ val ∈ Me.Positions, P val) (hnb : nb ∈ Me.GetNeighbors) :
    nb.Size = N ∧ nb.Positions.length = N ∧ (∀ val ∈ nb.Positions, P val) ∧
      nb.Fitness = 0 := by
  obtain ⟨i, j, hi, hj, rfl⟩ := (mem_GetNeighbors Me (by rw [hsize, hlen]) nb).mp hnb
  refine ⟨by simp [NewNQueenState, hlen], by simp [NewNQueenState, hlen], ?_, rfl⟩
  intro val hval
  rcases List.mem_or_eq_of_mem_set hval with hmem | heq
  · exact hrows val hmem
  · subst heq
    exact hP _ (by omega) (by omega)

/-- A state that `GetBestStates` returns on the neighbours of `current` is one
of these neighbours with its cache filled. -/
theorem mem_GetBestStates_neighbors {N : Nat} {current : NQueenState}
    (hsize : current.Size = N) (hlen : current.Positions.length = N)
    {bestStates : List NQueenState}
    (hbest : GetBestStates current.GetNeighbors = some bestStates)
    {neighbor : NQueenState} (hmem : neighbor ∈ bestStates) :
    ∃ nb ∈ current.GetNeighbors, neighbor = withFitness nb := by
  by_cases hne : current.GetNeighbors = []
  · rw [hne] at hbest
    cases hbest
  · have hfresh : ∀ s ∈ current.GetNeighbors, s.Fitness = 0 :=
      fun s hs => (rows_neighbor (P := fun _ => True) (fun _ _ _ => trivial) hsize hlen
        (fun _ _ => trivial) hs).2.2.2
    obtain ⟨m, _, hb, _⟩ := GetBestStates_fresh current.GetNeighbors hne hfresh
    rw [hb] at hbest
    cases hbest
    obtain ⟨nb, hnb, rfl⟩ := List.mem_map.mp hmem
    exact ⟨nb, (List.mem_filter.mp hnb).1, rfl⟩

theorem HillClimbLoop_returned_IsSolution (intn : Int → Nat → Nat) :
    ∀ (fuel : Nat) (current : NQueenState) (seed : Int) (s : NQueenState),
      HillClimbLoop intn fuel current seed = .returned s → s.IsSolution = some true := by
  intro fuel
  induction fuel with
  | zero =>
    intro current seed s h
    cases h
  | succ fuel ih =>
    intro current seed s h
    unfold HillClimbLoop at h
    split at h
    · cases h
    · split at h
      · cases h
      · split at h
        · cases h
        · split at h
          · cases h
          · next hsol =>
            cases h
            exact hsol
          · exact ih _ _ _ h

theorem HillClimbLoop_returned_rows (intn : Int → Nat → Nat) {P : Int → Prop} {N : Nat}
    (hP : ∀ r : Int, 1 ≤ r → r ≤ N → P r) :
    ∀ (fuel : Nat) (current : NQueenState) (seed : Int) (s : NQueenState),
      current.Size = N → current.Positions.length = N →
      (∀ val ∈ current.Positions, P val) →
      HillClimbLoop intn fuel current seed = .returned s →
        s.Size = N ∧ s.Positions.length = N ∧ ∀ val ∈ s.Positions, P val := by
  intro fuel
  induction fuel with
  | zero =>
    intro current seed s _ _ _ h
    cases h
  | succ fuel ih =>
    intro current seed s hsize hlen hrows h
    unfold HillClimbLoop at h
    split at h
    · cases h
    · next bestStates hbest =>
      split at h
      · cases h
      · split at h
        · cases h
        · next neighbor hidx =>
          obtain ⟨nb, hnb, rfl⟩ :=
            mem_GetBestStates_neighbors hsize hlen hbest (List.getElem?_mem hidx)
          obtain ⟨h1, h2, h3, _⟩ := rows_neighbor hP hsize hlen hrows hnb
          split at h
          · cases h
          · cases h
            exact ⟨h1, h2, h3⟩
          · exact ih (withFitness nb) _ s h1 h2 h3 h

/-- A state that `IsSolution` accepts has no two queens on a row or a
diagonal, whenever its rows are 64-bit values. -/
theorem no_attack_of_IsSolution (Me : NQueenState)
    (hrange : ∀ val ∈ Me.Positions, minInt ≤ val ∧ val ≤ maxInt)
    (hsol : Me.IsSolution = some true) :
    ∀ (i j : Nat) (vi vj : Int), i < j →
      Me.Positions[i]? = some vi → Me.Positions[j]? = some vj →
        vi ≠ vj ∧ |vi - vj| ≠ (j : Int) - i := by
  intro i j vi vj hij hi hj
  have hjlen : (j : Int) ≤ Me.Positions.length := by
    have := (List.getElem?_eq_some.mp hj).1
    omega
  have hsafe := (IsSolution_eq_true_iff Me).mp hsol j vj hj
  have hno := (IsSafe_eq_true_iff Me j vj hjlen).mp hsafe i vi (by omega) hi
  have hvi := hrange vi (List.getElem?_mem hi)
  refine ⟨fun e => hno (Or.inl e), fun e => hno ?_⟩
  rw [abs_eq (by omega)] at e
  rcases e with e | e
  · right; right
    have : vj + ((j : Int) - i) = vi := by omega
    rw [this, wrapInt_eq_self hvi.1 hvi.2]
  · right; left
    have : vj - ((j : Int) - i) = vi := by omega
    rw [this, wrapInt_eq_self hvi.1 hvi.2]

/-- C5.  If `HillClimbAlgorithm` returns a state, `IsSolution()` is true of
it; when the initial rows are 64-bit values (and the slice length a 64-bit value), no
two queens of the returned state share a row or a diagonal; and from the
all-ones board of size 4 the returned state has four rows in `1..4`, no two
on a row or a diagonal. -/
theorem HillClimb_returns_only_solutions (intn : Int → Nat → Nat) (fuel : Nat)
    (initialState : List Int) (s : NQueenState)
    (h : HillClimbAlgorithm intn fuel initialState = .returned s) :
    s.IsSolution = some true ∧
    ((initialState.length : Int) ≤ maxInt →
      (∀ val ∈ initialState, minInt ≤ val ∧ val ≤ maxInt) →
      ∀ (i j : Nat) (vi vj : Int), i < j →
        s.Positions[i]? = some vi → s.Positions[j]? = some vj →
          vi ≠ vj ∧ |vi - vj| ≠ (j : Int) - i) ∧
    (initialState = allOnes 4 →
      s.Positions.length = 4 ∧ (∀ val ∈ s.Positions, 1 ≤ val ∧ val ≤ 4) ∧
      ∀ (i j : Nat) (vi vj : Int), i < j →
        s.Positions[i]? = some vi → s.Positions[j]? = some vj →
          vi ≠ vj ∧ |vi - vj| ≠ (j : Int) - i) := by
  have hsol := HillClimbLoop_returned_IsSolution intn fuel _ _ s h
  have hgen : (initialState.length : Int) ≤ maxInt →
      (∀ val ∈ initialState, minInt ≤ val ∧ val ≤ maxInt) →
      ∀ (i j : Nat) (vi vj : Int), i < j →
        s.Positions[i]? = some vi → s.Positions[j]? = some vj →
          vi ≠ vj ∧ |vi - vj| ≠ (j : Int) - i := by
    intro hlen hrange
    have hrows := HillClimbLoop_returned_rows intn
      (P := fun r => minInt ≤ r ∧ r ≤ maxInt) (N := initialState.length)
      (fun r h1 h2 => ⟨by unfold minInt; omega, by omega⟩)
      fuel (NewNQueenState initialState) 0 s rfl rfl hrange h
    exact no_attack_of_IsSolution s hrows.2.2 hsol
  refine ⟨hsol, hgen, ?_⟩
  intro hinit
  subst hinit
  have hrows := HillClimbLoop_returned_rows intn
    (P := fun r => 1 ≤ r ∧ r ≤ 4) (N := 4) (fun r h1 h2 => ⟨h1, h2⟩)
    fuel (NewNQueenState (allOnes 4)) 0 s (boardOf_allOnes 4).1 (boardOf_allOnes 4).2.1
    (boardOf_allOnes 4).2.2 h
  refine ⟨hrows.2.1, hrows.2.2, hgen (by decide) ?_⟩
  intro val hval
  have := (boardOf_allOnes 4).2.2 val hval
  unfold minInt maxInt
  omega

/-- C5, witness: from the all-ones board of size 4, always picking the first
of the best neighbours, the third iteration returns `[3, 1, 4, 2]`. -/
theorem HillClimb_returns_only_solutions_witness :
    HillClimbAlgorithm (fun _ _ => 0) 3 (allOnes 4) = .returned ⟨[3, 1, 4, 2], 4, 4⟩ ∧
    (NQueenState.mk [3, 1, 4, 2] 4 4).IsSolution = some true :=
  ⟨by decide,
    (HillClimb_returns_only_solutions (fun _ _ => 0) 3 (allOnes 4) ⟨[3, 1, 4, 2], 4, 4⟩
      (by decide)).1⟩

/-! ## Simulated annealing -/

/-- One execution of the loop body on a board of `N ≥ 1` columns: it does not
panic, it moves `current` and `best` to the picked neighbour, whose fitness is
at least the fitness of the old `current`, and it adds one to `k`. -/
theorem AnnealBody_of_inv {N : Nat} (hN : 1 ≤ N) (intn : Int → Nat → Nat)
    (accept : Int → Nat → Int → Bool) {v : AnnealVars} (hinv : AnnealInv N v) :
    ∃ neighbor : NQueenState,
      AnnealBody intn accept (10 * (N : Int)) v =
        some { current := neighbor, best := neighbor, bestIsCurrent := true, k := v.k + 1 } ∧
      boardOf N neighbor ∧ neighbor.Fitness = countSafe neighbor ∧
      countSafe v.current ≤ countSafe neighbor := by
  obtain ⟨hboard, hcache, _, hbic, _⟩ := hinv
  obtain ⟨bestStates, hbs, hlen, hpick⟩ := pick_best_neighbor hN hboard
  have hlt : intn v.k bestStates.length % bestStates.length < bestStates.length :=
    Nat.mod_lt _ (Nat.pos_of_ne_zero hlen)
  have hidx := List.getElem?_eq_getElem hlt
  obtain ⟨hnb, hfit, hle⟩ := hpick _ _ hidx
  refine ⟨_, ?_, hnb, hfit, hle⟩
  have hnbrs : (withFitness v.current).GetNeighbors = v.current.GetNeighbors := rfl
  have hkmax : (10 * (N : Int)) ≠ 0 := by omega
  have h1 : (withFitness v.current).Fitness ≤
      (bestStates[intn v.k bestStates.length % bestStates.length]).Fitness := by
    rw [hfit]
    exact hle
  unfold AnnealBody
  rw [GetFitness_of_cacheOK _ hcache]
  simp only [hkmax, if_false, hnbrs, hbs, hlen, hidx, hbic, if_true, if_pos h1]

theorem AnnealInv_init (N : Nat) : AnnealInv N (AnnealInit (allOnes N)) :=
  ⟨boardOf_allOnes N, Or.inl rfl, rfl, rfl, le_refl _⟩

theorem AnnealBody_k (intn : Int → Nat → Nat) (accept : Int → Nat → Int → Bool)
    (kmax : Int) (v v1 : AnnealVars) (h : AnnealBody intn accept kmax v = some v1) :
    v1.k = v.k + 1 := by
  unfold AnnealBody at h
  simp only at h
  repeat' split at h
  all_goals first | (cases h; rfl) | cases h

theorem AnnealContinue_lt (kmax : Int) {v : AnnealVars} :
    AnnealContinue kmax v = some true → v.k < kmax := by
  unfold AnnealContinue
  split
  · intro h; cases h
  · intro h; cases h
  · intro h
    simpa using h

theorem AnnealContinue_isSome (kmax : Int) (v : AnnealVars) :
    ∃ b, AnnealContinue kmax v = some b := by
  unfold AnnealContinue
  rw [IsSolution_eq]
  split <;> simp_all

/-- The state of the loop after one more execution of its body. -/
theorem AnnealInv_step {N : Nat} (intn : Int → Nat → Nat)
    (accept : Int → Nat → Int → Bool) {v : AnnealVars} (hinv : AnnealInv N v)
    (hcont : AnnealContinue (10 * (N : Int)) v = some true) :
    ∃ v1, AnnealBody intn accept (10 * (N : Int)) v = some v1 ∧ AnnealInv N v1 ∧
      v1.k = v.k + 1 ∧ countSafe v.current ≤ countSafe v1.current := by
  have hk := AnnealContinue_lt _ hcont
  have hk0 : 0 ≤ v.k := hinv.2.2.2.2
  have hN : 1 ≤ N := by omega
  obtain ⟨neighbor, hbody, hboard, hfit, hle⟩ := AnnealBody_of_inv hN intn accept hinv
  exact ⟨_, hbody, ⟨hboard, Or.inr hfit, rfl, rfl, by show 0 ≤ v.k + 1; omega⟩, rfl, hle⟩

/-- If the loop returns, the invariant holds at its exit and the fitness of
`current` has not gone down. -/
theorem AnnealLoop_returned_inv {N : Nat} (intn : Int → Nat → Nat)
    (accept : Int → Nat → Int → Bool) :
    ∀ (fuel : Nat) (v vf : AnnealVars), AnnealInv N v →
      AnnealLoop intn accept (10 * (N : Int)) fuel v = .returned vf →
        AnnealInv N vf ∧ countSafe v.current ≤ countSafe vf.current ∧ v.k ≤ vf.k := by
  intro fuel
  induction fuel with
  | zero =>
    intro v vf hinv h
    unfold AnnealLoop at h
    split at h
    · cases h
    · cases h
    · cases h
      exact ⟨hinv, le_refl _, le_refl _⟩
  | succ fuel ih =>
    intro v vf hinv h
    unfold AnnealLoop at h
    split at h
    · cases h
    · cases h
      exact ⟨hinv, le_refl _, le_refl _⟩
    · next hcont =>
      obtain ⟨v1, hbody, hinv1, hk1, hle1⟩ := AnnealInv_step intn accept hinv hcont
      rw [hbody] at h
      obtain ⟨hinvf, hle, hk⟩ := ih v1 vf hinv1 h
      exact ⟨hinvf, le_trans hle1 hle, by omega⟩

/-- With fuel for the iterations that `kmax` still allows, the loop returns,
and `k` does not pass `kmax`. -/
theorem AnnealLoop_returns {N : Nat} (intn : Int → Nat → Nat)
    (accept : Int → Nat → Int → Bool) :
    ∀ (fuel : Nat) (v : AnnealVars), AnnealInv N v → v.k ≤ 10 * (N : Int) →
      (10 * (N : Int) - v.k).toNat ≤ fuel →
        ∃ vf, AnnealLoop intn accept (10 * (N : Int)) fuel v = .returned vf ∧
          vf.k ≤ 10 * (N : Int) := by
  intro fuel
  induction fuel with
  | zero =>
    intro v hinv hk hfuel
    obtain ⟨b, hb⟩ := AnnealContinue_isSome (10 * (N : Int)) v
    cases b with
    | true =>
      have := AnnealContinue_lt _ hb
      omega
    | false =>
      refine ⟨v, ?_, hk⟩
      unfold AnnealLoop
      rw [hb]
  | succ fuel ih =>
    intro v hinv hk hfuel
    obtain ⟨b, hb⟩ := AnnealContinue_isSome (10 * (N : Int)) v
    cases b with
    | false =>
      refine ⟨v, ?_, hk⟩
      unfold AnnealLoop
      rw [hb]
    | true =>
      have hlt := AnnealContinue_lt _ hb
      obtain ⟨v1, hbody, hinv1, hk1, _⟩ := AnnealInv_step intn accept hinv hb
      obtain ⟨vf, hvf, hkf⟩ := ih v1 hinv1 (by omega) (by omega)
      refine ⟨vf, ?_, hkf⟩
      unfold AnnealLoop
      rw [hb]
      simp only [hbody]
      exact hvf

/-- The variables after `j` executions of the body: the invariant holds, and
`current` is no fitter than `current` at the exit of the loop. -/
theorem AnnealVarsAt_le_final {N : Nat} (intn : Int → Nat → Nat)
    (accept : Int → Nat → Int → Bool) :
    ∀ (j fuel : Nat) (v vj vf : AnnealVars), AnnealInv N v →
      AnnealVarsAt intn accept (10 * (N : Int)) j v = some vj →
      AnnealLoop intn accept (10 * (N : Int)) fuel v = .returned vf →
        AnnealInv N vj ∧ countSafe vj.current ≤ countSafe vf.current := by
  intro j
  induction j with
  | zero =>
    intro fuel v vj vf hinv hj hf
    cases hj
    exact ⟨hinv, (AnnealLoop_returned_inv intn accept fuel _ vf hinv hf).2.1⟩
  | succ j ih =>
    intro fuel v vj vf hinv hj hf
    unfold AnnealVarsAt at hj
    split at hj
    · next hcont =>
      obtain ⟨v1, hbody, hinv1, _, _⟩ := AnnealInv_step intn accept hinv hcont
      rw [hbody] at hj
      cases fuel with
      | zero =>
        unfold AnnealLoop at hf
        rw [hcont] at hf
        cases hf
      | succ fuel =>
        unfold AnnealLoop at hf
        rw [hcont] at hf
        simp only [hbody] at hf
        exact ih fuel v1 vj vf hinv1 hj hf
    · cases hj

/-- After `j` executions of the body `k` has grown by `j`, and it has not
passed `kmax`. -/
theorem AnnealVarsAt_k (intn : Int → Nat → Nat) (accept : Int → Nat → Int → Bool)
    (kmax : Int) :
    ∀ (j : Nat) (v vj : AnnealVars), AnnealVarsAt intn accept kmax j v = some vj →
      vj.k = v.k + j ∧ (1 ≤ j → vj.k ≤ kmax) := by
  intro j
  induction j with
  | zero =>
    intro v vj hj
    cases hj
    exact ⟨by simp, fun h => absurd h (by decide)⟩
  | succ j ih =>
    intro v vj hj
    unfold AnnealVarsAt at hj
    split at hj
    · next hcont =>
      have hlt := AnnealContinue_lt _ hcont
      split at hj
      · cases hj
      · next v1 hbody =>
        have hk1 := AnnealBody_k _ _ _ _ _ hbody
        obtain ⟨hk, hb⟩ := ih v1 vj hj
        refine ⟨by push_cast; omega, fun _ => ?_⟩
        rcases Nat.eq_zero_or_pos j with h0 | hpos
        · subst h0
          simp only [Nat.cast_zero, add_zero] at hk
          omega
        · exact hb hpos
    · cases hj

theorem AnnealRun_allOnes (intn : Int → Nat → Nat) (accept : Int → Nat → Int → Bool)
    (fuel N : Nat) :
    AnnealRun intn accept fuel (allOnes N) =
      AnnealLoop intn accept (10 * (N : Int)) fuel (AnnealInit (allOnes N)) := by
  unfold AnnealRun
  simp [NewNQueenState, allOnes]

theorem fitnessValue_of_inv_current {N : Nat} {v : AnnealVars} (h : AnnealInv N v) :
    fitnessValue v.current = some (countSafe v.current) :=
  fitnessValue_of_cacheOK _ h.2.1

theorem AnnealRunAt_allOnes (intn : Int → Nat → Nat) (accept : Int → Nat → Int → Bool)
    (N j : Nat) :
    AnnealRunAt intn accept (allOnes N) j =
      AnnealVarsAt intn accept (10 * (N : Int)) j (AnnealInit (allOnes N)) := by
  unfold AnnealRunAt
  simp [NewNQueenState, allOnes]

/-- A loop that returns has executed its body some `n ≤ fuel` times and then
found its condition false. -/
theorem AnnealLoop_returned_at (intn : Int → Nat → Nat)
    (accept : Int → Nat → Int → Bool) (kmax : Int) :
    ∀ (fuel : Nat) (v vf : AnnealVars),
      AnnealLoop intn accept kmax fuel v = .returned vf →
        ∃ n, n ≤ fuel ∧ AnnealVarsAt intn accept kmax n v = some vf ∧
          AnnealContinue kmax vf = some false := by
  intro fuel
  induction fuel with
  | zero =>
    intro v vf h
    unfold AnnealLoop at h
    split at h
    · cases h
    · cases h
    · next hc =>
      cases h
      exact ⟨0, le_refl _, rfl, hc⟩
  | succ fuel ih =>
    intro v vf h
    unfold AnnealLoop at h
    split at h
    · cases h
    · next hc =>
      cases h
      exact ⟨0, Nat.zero_le _, rfl, hc⟩
    · next hc =>
      split at h
      · cases h
      · next v1 hbody =>
        obtain ⟨n, hn, hat, hstop⟩ := ih v1 vf h
        refine ⟨n + 1, by omega, ?_, hstop⟩
        unfold AnnealVarsAt
        simp only [hc, hbody]
        exact hat

/-- Once the condition is false the body is not executed again. -/
theorem AnnealVarsAt_succ_none (intn : Int → Nat → Nat)
    (accept : Int → Nat → Int → Bool) (kmax : Int) :
    ∀ (n : Nat) (v vf : AnnealVars), AnnealVarsAt intn accept kmax n v = some vf →
      AnnealContinue kmax vf = some false →
        AnnealVarsAt intn accept kmax (n + 1) v = none := by
  intro n
  induction n with
  | zero =>
    intro v vf h hstop
    cases h
    unfold AnnealVarsAt
    simp only [hstop]
  | succ n ih =>
    intro v vf h hstop
    unfold AnnealVarsAt at h
    split at h
    · next hc =>
      split at h
      · cases h
      · next v1 hbody =>
        have := ih v1 vf h hstop
        rw [AnnealVarsAt, hc]
        simp only [hbody]
        exact this
    · cases h

theorem SimulatedAnnelingAlgorithm_of_run (intn : Int → Nat → Nat)
    (accept : Int → Nat → Int → Bool) (fuel : Nat) (initialState : List Int)
    (vf : AnnealVars) (h : AnnealRun intn accept fuel initialState = .returned vf) :
    SimulatedAnnelingAlgorithm intn accept fuel initialState = .returned vf.best := by
  unfold SimulatedAnnelingAlgorithm
  rw [h]

/-- C6.  From the all-ones board of any size `N`, for every generator, and
with fuel for `10 * N` iterations, `SimulatedAnnelingAlgorithm` returns a
state whose fitness is at least the fitness of the initial state and at least
the fitness of every state that was `current` after some number of
iterations of the run. -/
theorem Annealing_returns_best_seen (N : Nat) (intn : Int → Nat → Nat)
    (accept : Int → Nat → Int → Bool) (fuel : Nat) (hfuel : 10 * N ≤ fuel) :
    ∃ (vf : AnnealVars) (fInit fBest : Int),
      AnnealRun intn accept fuel (allOnes N) = .returned vf ∧
      SimulatedAnnelingAlgorithm intn accept fuel (allOnes N) = .returned vf.best ∧
      fitnessValue (NewNQueenState (allOnes N)) = some fInit ∧
      fitnessValue vf.best = some fBest ∧
      fInit ≤ fBest ∧
      ∀ (j : Nat) (vj : AnnealVars), AnnealRunAt intn accept (allOnes N) j = some vj →
        ∃ fj, fitnessValue vj.current = some fj ∧ fj ≤ fBest := by
  have hinit := AnnealInv_init N
  obtain ⟨vf, hvf, _⟩ := AnnealLoop_returns intn accept fuel (AnnealInit (allOnes N)) hinit
    (by show (0 : Int) ≤ 10 * (N : Int); omega)
    (by show (10 * (N : Int) - 0).toNat ≤ fuel; omega)
  obtain ⟨hinvf, hle, _⟩ := AnnealLoop_returned_inv intn accept fuel _ vf hinit hvf
  have hrun : AnnealRun intn accept fuel (allOnes N) = .returned vf := by
    rw [AnnealRun_allOnes]
    exact hvf
  have hbest : vf.best = vf.current := hinvf.2.2.1
  refine ⟨vf, countSafe (NewNQueenState (allOnes N)), countSafe vf.current, hrun,
    SimulatedAnnelingAlgorithm_of_run _ _ _ _ _ hrun,
    fitnessValue_fresh _ rfl, ?_, hle, ?_⟩
  · rw [hbest]
    exact fitnessValue_of_inv_current hinvf
  · intro j vj hj
    rw [AnnealRunAt_allOnes] at hj
    obtain ⟨hinvj, hlej⟩ := AnnealVarsAt_le_final intn accept j fuel _ vj vf hinit hj hvf
    exact ⟨_, fitnessValue_of_inv_current hinvj, hlej⟩

/-- C6, witness: the board of size 2 with fuel for 20 iterations. -/
theorem Annealing_returns_best_seen_witness :
    ∃ (vf : AnnealVars) (fInit fBest : Int),
      AnnealRun (fun _ _ => 0) (fun _ _ _ => true) 20 (allOnes 2) = .returned vf ∧
      SimulatedAnnelingAlgorithm (fun _ _ => 0) (fun _ _ _ => true) 20 (allOnes 2) =
        .returned vf.best ∧
      fitnessValue (NewNQueenState (allOnes 2)) = some fInit ∧
      fitnessValue vf.best = some fBest ∧
      fInit ≤ fBest ∧
      ∀ (j : Nat) (vj : AnnealVars),
        AnnealRunAt (fun _ _ => 0) (fun _ _ _ => true) (allOnes 2) j = some vj →
          ∃ fj, fitnessValue vj.current = some fj ∧ fj ≤ fBest :=
  Annealing_returns_best_seen 2 (fun _ _ => 0) (fun _ _ _ => true) 20 (by decide)

/-- C7.  From the all-ones board of any size `N`, for every generator, and
with fuel for `10 * N` iterations, `SimulatedAnnelingAlgorithm` returns a
state without panicking, after executing its loop body exactly `n` times for
some `n ≤ 10 * N` (the value of `k` when the loop is left). -/
theorem Annealing_terminates_within_kmax (N : Nat) (intn : Int → Nat → Nat)
    (accept : Int → Nat → Int → Bool) (fuel : Nat) (hfuel : 10 * N ≤ fuel) :
    ∃ (vf : AnnealVars) (n : Nat),
      AnnealRun intn accept fuel (allOnes N) = .returned vf ∧
      SimulatedAnnelingAlgorithm intn accept fuel (allOnes N) = .returned vf.best ∧
      n ≤ 10 * N ∧ vf.k = n ∧
      AnnealRunAt intn accept (allOnes N) n = some vf ∧
      AnnealRunAt intn accept (allOnes N) (n + 1) = none := by
  have hinit := AnnealInv_init N
  obtain ⟨vf, hvf, hkf⟩ := AnnealLoop_returns intn accept fuel (AnnealInit (allOnes N)) hinit
    (by show (0 : Int) ≤ 10 * (N : Int); omega)
    (by show (10 * (N : Int) - 0).toNat ≤ fuel; omega)
  have hrun : AnnealRun intn accept fuel (allOnes N) = .returned vf := by
    rw [AnnealRun_allOnes]
    exact hvf
  obtain ⟨n, _, hat, hstop⟩ := AnnealLoop_returned_at intn accept _ fuel _ vf hvf
  have hk := (AnnealVarsAt_k intn accept _ n _ vf hat).1
  have hk0 : (AnnealInit (allOnes N)).k = 0 := rfl
  refine ⟨vf, n, hrun, SimulatedAnnelingAlgorithm_of_run _ _ _ _ _ hrun, by omega,
    by omega, ?_, ?_⟩
  · rw [AnnealRunAt_allOnes]
    exact hat
  · rw [AnnealRunAt_allOnes]
    exact AnnealVarsAt_succ_none intn accept _ n _ vf hat hstop

/-- C7, witness: the board of size 3 with fuel for 30 iterations. -/
theorem Annealing_terminates_within_kmax_witness :
    ∃ (vf : AnnealVars) (n : Nat),
      AnnealRun (fun _ _ => 1) (fun _ _ _ => false) 30 (allOnes 3) = .returned vf ∧
      SimulatedAnnelingAlgorithm (fun _ _ => 1) (fun _ _ _ => false) 30 (allOnes 3) =
        .returned vf.best ∧
      n ≤ 10 * 3 ∧ vf.k = n ∧
      AnnealRunAt (fun _ _ => 1) (fun _ _ _ => false) (allOnes 3) n = some vf ∧
      AnnealRunAt (fun _ _ => 1) (fun _ _ _ => false) (allOnes 3) (n + 1) = none :=
  Annealing_terminates_within_kmax 3 (fun _ _ => 1) (fun _ _ _ => false) 30 (by decide)

/-! ## Further claims on fitness -/

/-- C11.  On a non-empty sequence of freshly constructed board states
`GetMaxFitness` returns (although `max` starts from the raw `Fitness` field of
the first state), its value is at least the fitness of every state of the
sequence and is the fitness of one of them; on the empty sequence it panics
instead of returning a value. -/
theorem GetMaxFitness_is_maximum (boards : List (List Int)) (hne : boards ≠ []) :
    (∃ (max : Int) (states1 : List NQueenState),
      GetMaxFitness (boards.map NewNQueenState) = some (max, states1) ∧
      (∀ b ∈ boards, ∃ fit, fitnessValue (NewNQueenState b) = some fit ∧ fit ≤ max) ∧
      (∃ b ∈ boards, fitnessValue (NewNQueenState b) = some max)) ∧
    GetMaxFitness [] = none := by
  refine ⟨?_, rfl⟩
  have hne1 : boards.map NewNQueenState ≠ [] := by simpa using hne
  have hfresh : ∀ s ∈ boards.map NewNQueenState, s.Fitness = 0 := by
    intro s hs
    obtain ⟨b, _, rfl⟩ := List.mem_map.mp hs
    rfl
  obtain ⟨m, hm, hall, s0, hs0, hs0m⟩ :=
    GetMaxFitness_fresh (boards.map NewNQueenState) hne1 hfresh
  refine ⟨m, _, hm, ?_, ?_⟩
  · intro b hb
    exact ⟨_, fitnessValue_fresh (NewNQueenState b) rfl,
      hall _ (List.mem_map_of_mem _ hb)⟩
  · obtain ⟨b, hb, rfl⟩ := List.mem_map.mp hs0
    exact ⟨b, hb, by rw [fitnessValue_fresh (NewNQueenState b) rfl, hs0m]⟩

/-- C11, witness: the all-ones board next to a solution. -/
theorem GetMaxFitness_is_maximum_witness :
    (∃ (max : Int) (states1 : List NQueenState),
      GetMaxFitness ([[1, 1, 1, 1], [2, 4, 1, 3]].map NewNQueenState) = some (max, states1) ∧
      (∀ b ∈ [[1, 1, 1, 1], [2, 4, 1, 3]],
        ∃ fit, fitnessValue (NewNQueenState b) = some fit ∧ fit ≤ max) ∧
      (∃ b ∈ [[1, 1, 1, 1], [2, 4, 1, 3]], fitnessValue (NewNQueenState b) = some max)) ∧
    GetMaxFitness [] = none :=
  GetMaxFitness_is_maximum [[1, 1, 1, 1], [2, 4, 1, 3]] (by decide)

/-- Column 0 is among the safe columns of a non-empty board. -/
theorem countSafe_pos (Me : NQueenState) (h : 1 ≤ Me.Positions.length) :
    1 ≤ countSafe Me := by
  have h0 : 0 < Me.Positions.length := h
  have hmem : (0, Me.Positions[0]) ∈ safeColumns Me := by
    unfold safeColumns
    rw [List.mem_filter]
    refine ⟨List.mk_mem_enum_iff_getElem?.mpr (List.getElem?_eq_getElem h0), ?_⟩
    simp [NQueenState.IsSafe, IsSafeLoop]
  have hpos : 0 < (safeColumns Me).length := List.length_pos_of_mem hmem
  unfold countSafe
  omega

theorem countSafe_le (Me : NQueenState) : countSafe Me ≤ Me.Positions.length := by
  have := safeColumns_length_le Me
  unfold countSafe
  omega

/-- C15.  On a freshly constructed board state of size `N`, `GetFitness()`
returns a value between 0 and `N`, which is at least 1 when `N ≥ 1`; so the
value 0 arises only for the empty board, the cache of a non-empty board is
non-zero after the first call, and a second call returns the same value and
leaves the state as it is. -/
theorem GetFitness_bounds (state : List Int) :
    ∃ (fit : Int) (Me1 : NQueenState),
      (NewNQueenState state).GetFitness = some (fit, Me1) ∧
      0 ≤ fit ∧ fit ≤ (NewNQueenState state).Size ∧
      (1 ≤ state.length → 1 ≤ fit) ∧
      (fit = 0 → state = []) ∧
      (1 ≤ state.length → Me1.Fitness ≠ 0) ∧
      Me1.GetFitness = some (fit, Me1) := by
  have hpos : 1 ≤ state.length → 1 ≤ countSafe (NewNQueenState state) :=
    fun h => countSafe_pos (NewNQueenState state) h
  refine ⟨countSafe (NewNQueenState state), withFitness (NewNQueenState state),
    GetFitness_fresh _ rfl, countSafe_nonneg _, countSafe_le _, hpos, ?_, ?_,
    GetFitness_withFitness _⟩
  · intro hz
    by_contra hne
    have hlen : 1 ≤ state.length := List.length_pos.mpr hne
    have := hpos hlen
    omega
  · intro hlen
    have := hpos hlen
    show countSafe (NewNQueenState state) ≠ 0
    omega

/-- C15, witness: the all-ones board of size 4. -/
theorem GetFitness_bounds_witness :
    ∃ (fit : Int) (Me1 : NQueenState),
      (NewNQueenState [1, 1, 1, 1]).GetFitness = some (fit, Me1) ∧
      0 ≤ fit ∧ fit ≤ (NewNQueenState [1, 1, 1, 1]).Size ∧
      (1 ≤ [(1 : Int), 1, 1, 1].length → 1 ≤ fit) ∧
      (fit = 0 → [(1 : Int), 1, 1, 1] = []) ∧
      (1 ≤ [(1 : Int), 1, 1, 1].length → Me1.Fitness ≠ 0) ∧
      Me1.GetFitness = some (fit, Me1) :=
  GetFitness_bounds [1, 1, 1, 1]

/-- C16.  For `N = 1`, `HillClimbAlgorithm` started from the board `[1]`
returns in its first iteration, whatever the generator draws, and the state
it returns has the positions `[1]`. -/
theorem HillClimb_size_one (intn : Int → Nat → Nat) (fuel : Nat) :
    HillClimbAlgorithm intn (fuel + 1) [1] = .returned ⟨[1], 1, 1⟩ ∧
    (NQueenState.mk [1] 1 1).Positions = [1] := by
  refine ⟨?_, rfl⟩
  have hbest : GetBestStates (NewNQueenState [1]).GetNeighbors = some [⟨[1], 1, 1⟩] := by
    decide
  have hsol : (NQueenState.mk [1] 1 1).IsSolution = some true := by decide
  unfold HillClimbAlgorithm HillClimbLoop
  rw [hbest]
  simp [Nat.mod_one, hsol]

theorem enum_eq_map_range (l : List Int) :
    l.enum = (List.range l.length).map fun (i : Nat) => (i, l.getD i 0) := by
  apply List.ext_getElem?
  intro k
  by_cases hk : k < l.length
  · rw [List.getElem?_map, List.getElem?_range hk]
    simp [List.enum, List.getElem?_enumFrom, List.getElem?_eq_getElem hk, List.getD_eq_getElem?_getD]
  · have h1 : l.enum.length ≤ k := by rw [List.enum_length]; omega
    have h2 : ((List.range l.length).map fun (i : Nat) => (i, l.getD i 0)).length ≤ k := by
      simp; omega
    rw [List.getElem?_eq_none h1, List.getElem?_eq_none h2]

/-- On rows for which `row ± column` is representable, `IsSafe` on a column
and its own row says that no earlier queen shares a line with it. -/
theorem IsSafe_eq_notAttackedByEarlier (Me : NQueenState)
    (hrange : ∀ (j : Nat) (val : Int), Me.Positions[j]? = some val →
      minInt ≤ val - j ∧ val + j ≤ maxInt)
    (c : Nat) (hc : c < Me.Positions.length) :
    decide (Me.IsSafe c (Me.Positions.getD c 0) = some true) =
      notAttackedByEarlier Me.Positions c := by
  have hcget : Me.Positions[c]? = some (Me.Positions.getD c 0) := by
    rw [List.getD_eq_getElem?_getD, List.getElem?_eq_getElem hc]
    rfl
  obtain ⟨hlo, hhi⟩ := hrange c _ hcget
  rw [Bool.eq_iff_iff]
  simp only [decide_eq_true_eq, notAttackedByEarlier, List.all_eq_true, List.mem_range,
    Bool.not_eq_true', sharesLine, decide_eq_false_iff_not]
  rw [IsSafe_eq_true_iff Me c _ (by omega)]
  constructor
  · intro h i hi
    have hi1 : i < Me.Positions.length := by omega
    have hget : Me.Positions[i]? = some (Me.Positions.getD i 0) := by
      rw [List.getD_eq_getElem?_getD, List.getElem?_eq_getElem hi1]
      rfl
    have hno := h i _ (by omega) hget
    rw [hits_iff_attack _ (by omega) hlo hhi] at hno
    rw [abs_of_nonneg (by omega : (0 : Int) ≤ (c : Int) - (i : Int))]
    exact hno
  · intro h i val hi hget
    have hi0 : i < c := by omega
    have hno := h i hi0
    rw [abs_of_nonneg (by omega : (0 : Int) ≤ (c : Int) - (i : Int))] at hno
    rw [hits_iff_attack _ hi hlo hhi]
    have hval : Me.Positions.getD i 0 = val := by
      rw [List.getD_eq_getElem?_getD, hget]
      rfl
    rw [hval] at hno
    exact hno

theorem countSafe_eq_notAttackedByEarlier (Me : NQueenState)
    (hrange : ∀ (j : Nat) (val : Int), Me.Positions[j]? = some val →
      minInt ≤ val - j ∧ val + j ≤ maxInt) :
    countSafe Me =
      (((List.range Me.Positions.length).filter
        (notAttackedByEarlier Me.Positions)).length : Nat) := by
  unfold countSafe safeColumns
  rw [enum_eq_map_range, List.filter_map, List.length_map]
  congr 2
  apply List.filter_congr
  intro c hc
  exact IsSafe_eq_notAttackedByEarlier Me hrange c (List.mem_range.mp hc)

/-- C13 (as amended).  On a freshly constructed board state whose rows keep
`row ± column` inside the 64-bit range, `GetFitness()` returns the number of
columns `c` whose queen shares no row and no diagonal with the queen of an
earlier column `i < c`. -/
theorem GetFitness_counts_unattacked_by_earlier (state : List Int)
    (hrange : ∀ (j : Nat) (val : Int), state[j]? = some val →
      minInt ≤ val - j ∧ val + j ≤ maxInt) :
    ∃ Me1 : NQueenState,
      (NewNQueenState state).GetFitness =
        some ((((List.range state.length).filter
          (notAttackedByEarlier state)).length : Int), Me1) := by
  refine ⟨withFitness (NewNQueenState state), ?_⟩
  rw [GetFitness_fresh _ rfl, countSafe_eq_notAttackedByEarlier (NewNQueenState state) hrange]
  rfl

/-- C13, witness: the board `[1, 3, 1, 2]`, where columns 0 and 1 are not
attacked from the left. -/
theorem GetFitness_counts_unattacked_by_earlier_witness :
    ∃ Me1 : NQueenState,
      (NewNQueenState [1, 3, 1, 2]).GetFitness =
        some ((((List.range [(1 : Int), 3, 1, 2].length).filter
          (notAttackedByEarlier [1, 3, 1, 2])).length : Int), Me1) :=
  GetFitness_counts_unattacked_by_earlier [1, 3, 1, 2] (by
    intro j val hj
    have hlt : j < 4 := (List.getElem?_eq_some.mp hj).1
    unfold minInt maxInt
    interval_cases j <;> simp at hj <;> subst hj <;> decide)

/-- C13, counterexample to the claim as stated: on the board `[1, 1]` each
queen is attacked by the other one, so no queen is unattacked, yet
`GetFitness()` returns 1 (column 0 has no earlier column). -/
theorem GetFitness_is_not_unattacked_count :
    (NewNQueenState [1, 1]).GetFitness = some (1, ⟨[1, 1], 2, 1⟩) ∧
    ((List.range [(1 : Int), 1].length).filter (notAttackedByAny [1, 1])).length = 0 := by
  decide

/-! ## Boards without a solution, and the invariant of the searches -/

theorem IsSolution_ne_true_iff (Me : NQueenState) :
    Me.IsSolution ≠ some true ↔ Me.IsSolution = some false := by
  rw [IsSolution_eq]
  cases (Me.Positions.enum.all fun p => decide (Me.IsSafe p.1 p.2 = some true)) <;> simp

theorem boardOf_range {N : Nat} {Me : NQueenState} (h : boardOf N Me)
    (hN : (N : Int) ≤ maxInt) :
    ∀ val ∈ Me.Positions, minInt ≤ val ∧ val ≤ maxInt := by
  intro val hval
  have := h.2.2 val hval
  unfold minInt
  omega

/-- No board of two columns with rows in `1..2` is a solution. -/
theorem no_solution_two (Me : NQueenState) (h : boardOf 2 Me) :
    Me.IsSolution = some false := by
  rw [← IsSolution_ne_true_iff]
  intro hsol
  have hno := no_attack_of_IsSolution Me (boardOf_range h (by decide)) hsol
  obtain ⟨_, hlen, hrows⟩ := h
  match hp : Me.Positions, hlen with
  | [a, b], _ =>
    rw [hp] at hno hrows
    have ha := hrows a (by simp)
    have hb := hrows b (by simp)
    have h01 := hno 0 1 a b (by decide) rfl rfl
    have e1 : |a - b| = 1 ↔ (a - b = 1 ∨ a - b = -1) := abs_eq (by decide)
    simp only [Nat.cast_one, Nat.cast_zero, sub_zero, Ne, e1] at h01
    omega

/-- No board of three columns with rows in `1..3` is a solution. -/
theorem no_solution_three (Me : NQueenState) (h : boardOf 3 Me) :
    Me.IsSolution = some false := by
  rw [← IsSolution_ne_true_iff]
  intro hsol
  have hno := no_attack_of_IsSolution Me (boardOf_range h (by decide)) hsol
  obtain ⟨_, hlen, hrows⟩ := h
  match hp : Me.Positions, hlen with
  | [a, b, c], _ =>
    rw [hp] at hno hrows
    have ha := hrows a (by simp)
    have hb := hrows b (by simp)
    have hc := hrows c (by simp)
    have h01 := hno 0 1 a b (by decide) rfl rfl
    have h12 := hno 1 2 b c (by decide) rfl rfl
    have e1 : |a - b| = 1 ↔ (a - b = 1 ∨ a - b = -1) := abs_eq (by decide)
    have e2 : |b - c| = 1 ↔ (b - c = 1 ∨ b - c = -1) := abs_eq (by decide)
    have h02 := (hno 0 2 a c (by decide) rfl rfl).1
    simp only [Nat.cast_one, Nat.cast_zero, sub_zero, Ne, e1] at h01
    norm_num at h12
    rw [e2] at h12
    omega

/-- On boards of `N ≥ 1` columns none of which is a solution, the loop of
`HillClimbAlgorithm` neither returns nor panics, however long it runs. -/
theorem HillClimbLoop_unfinished (intn : Int → Nat → Nat) {N : Nat} (hN : 1 ≤ N)
    (hno : ∀ Me, boardOf N Me → Me.IsSolution = some false) :
    ∀ (fuel : Nat) (current : NQueenState) (seed : Int), boardOf N current →
      HillClimbLoop intn fuel current seed = .unfinished := by
  intro fuel
  induction fuel with
  | zero => intro current seed _; rfl
  | succ fuel ih =>
    intro current seed hboard
    obtain ⟨bestStates, hbs, hlen, hpick⟩ := pick_best_neighbor hN hboard
    have hlt : intn seed bestStates.length % bestStates.length < bestStates.length :=
      Nat.mod_lt _ (Nat.pos_of_ne_zero hlen)
    have hidx := List.getElem?_eq_getElem hlt
    obtain ⟨hnb, _, _⟩ := hpick _ _ hidx
    unfold HillClimbLoop
    simp only [hbs, hlen, if_false, hidx, hno _ hnb]
    exact ih _ _ hnb

/-- C18.  For `N = 2` and for `N = 3`, `HillClimbAlgorithm` started from the
all-ones board has not returned (and has not panicked) after any number
`fuel` of iterations, whatever the generator draws. -/
theorem HillClimb_never_returns_two_three (intn : Int → Nat → Nat) (fuel : Nat) :
    HillClimbAlgorithm intn fuel (allOnes 2) = .unfinished ∧
    HillClimbAlgorithm intn fuel (allOnes 3) = .unfinished :=
  ⟨HillClimbLoop_unfinished intn (by decide) no_solution_two fuel _ 0 (boardOf_allOnes 2),
   HillClimbLoop_unfinished intn (by decide) no_solution_three fuel _ 0 (boardOf_allOnes 3)⟩

/-- C20.  Having size `N`, exactly `N` positions and every row in `1..N` is
kept by `GetNeighbors`, and it holds of every state that
`HillClimbAlgorithm` or `SimulatedAnnelingAlgorithm` returns when started from
the all-ones board of size `N`. -/
theorem searches_keep_rows_in_board (N : Nat) :
    (∀ Me nb : NQueenState,
      (Me.Size = N ∧ Me.Positions.length = N ∧ ∀ val ∈ Me.Positions, 1 ≤ val ∧ val ≤ N) →
      nb ∈ Me.GetNeighbors →
        nb.Size = N ∧ nb.Positions.length = N ∧ ∀ val ∈ nb.Positions, 1 ≤ val ∧ val ≤ N) ∧
    (∀ (intn : Int → Nat → Nat) (fuel : Nat) (s : NQueenState),
      HillClimbAlgorithm intn fuel (allOnes N) = .returned s →
        s.Positions.length = N ∧ ∀ val ∈ s.Positions, 1 ≤ val ∧ val ≤ N) ∧
    (∀ (intn : Int → Nat → Nat) (accept : Int → Nat → Int → Bool) (fuel : Nat)
      (s : NQueenState),
      SimulatedAnnelingAlgorithm intn accept fuel (allOnes N) = .returned s →
        s.Positions.length = N ∧ ∀ val ∈ s.Positions, 1 ≤ val ∧ val ≤ N) := by
  refine ⟨?_, ?_, ?_⟩
  · intro Me nb hMe hnb
    exact (boardOf_neighbor hMe hnb).1
  · intro intn fuel s h
    exact (HillClimbLoop_returned_rows intn (P := fun r => 1 ≤ r ∧ r ≤ (N : Int))
      (fun r h1 h2 => ⟨h1, h2⟩) fuel (NewNQueenState (allOnes N)) 0 s
      (boardOf_allOnes N).1 (boardOf_allOnes N).2.1 (boardOf_allOnes N).2.2 h).2
  · intro intn accept fuel s h
    unfold SimulatedAnnelingAlgorithm at h
    split at h
    · next vf hrun =>
      cases h
      rw [AnnealRun_allOnes] at hrun
      obtain ⟨hinv, _, _⟩ :=
        AnnealLoop_returned_inv intn accept fuel _ vf (AnnealInv_init N) hrun
      rw [hinv.2.2.1]
      exact hinv.1.2
    · cases h
    · cases h

/-- C20, witness: the state that hill climbing returns from the all-ones board
of size 4 when it always picks the first of the best neighbours. -/
theorem searches_keep_rows_in_board_witness :
    HillClimbAlgorithm (fun _ _ => 0) 3 (allOnes 4) = .returned ⟨[3, 1, 4, 2], 4, 4⟩ ∧
    (NQueenState.mk [3, 1, 4, 2] 4 4).Positions.length = 4 ∧
    ∀ val ∈ (NQueenState.mk [3, 1, 4, 2] 4 4).Positions, 1 ≤ val ∧ val ≤ ((4 : Nat) : Int) :=
  ⟨by decide,
    (searches_keep_rows_in_board 4).2.1 (fun _ _ => 0) 3 ⟨[3, 1, 4, 2], 4, 4⟩ (by decide)⟩

/-! ## The branches of the annealing loop -/

theorem wrapInt_zero : wrapInt 0 = 0 := by decide

/-- The loop body is `AnnealPick` followed by the acceptance rule. -/
theorem AnnealBody_eq_of_pick (intn : Int → Nat → Nat) (accept : Int → Nat → Int → Bool)
    (kmax : Int) (v : AnnealVars) :
    AnnealBody intn accept kmax v =
      match AnnealPick intn kmax v with
      | none => none
      | some (temp, current, neighbor, n) =>
        if current.Fitness ≤ neighbor.Fitness then
          if (if v.bestIsCurrent then current else v.best).Fitness ≤ neighbor.Fitness then
            some { current := neighbor, best := neighbor,
                   bestIsCurrent := true, k := v.k + 1 }
          else
            some { current := neighbor, best := if v.bestIsCurrent then current else v.best,
                   bestIsCurrent := false, k := v.k + 1 }
        else if temp = 0 then none
        else if accept v.k n
            (wrapInt (current.Fitness - wrapInt (neighbor.Fitness.tdiv temp))) then
          some { current := neighbor, best := if v.bestIsCurrent then current else v.best,
                 bestIsCurrent := false, k := v.k + 1 }
        else
          some { current := current, best := if v.bestIsCurrent then current else v.best,
                 bestIsCurrent := v.bestIsCurrent, k := v.k + 1 } := by
  unfold AnnealBody AnnealPick
  cases v.current.GetFitness with
  | none => rfl
  | some p =>
    obtain ⟨fit, current⟩ := p
    simp only
    by_cases hk : kmax = 0
    · simp only [hk, if_true]
    · simp only [hk, if_false]
      cases GetBestStates current.GetNeighbors with
      | none => rfl
      | some bestStates =>
        simp only
        by_cases hl : bestStates.length = 0
        · simp only [hl, if_true]
        · simp only [hl, if_false]
          cases bestStates[intn v.k bestStates.length % bestStates.length]? with
          | none => rfl
          | some neighbor => rfl

/-- What `AnnealPick` yields on a state of `N` columns whose cache is empty or
right, with `kmax = 10 * N`: `temp` is 0, and the picked neighbour is again
such a state. -/
theorem AnnealPick_of_sizedOK (intn : Int → Nat → Nat) {N : Nat} {v : AnnealVars}
    (h : sizedOK N v.current) {temp : Int} {current neighbor : NQueenState} {n : Nat}
    (hpick : AnnealPick intn (10 * (N : Int)) v = some (temp, current, neighbor, n)) :
    temp = 0 ∧ current = withFitness v.current ∧ sizedOK N neighbor := by
  obtain ⟨hsize, hlen, hcache⟩ := h
  unfold AnnealPick at hpick
  rw [GetFitness_of_cacheOK _ hcache] at hpick
  simp only at hpick
  split at hpick
  · cases hpick
  · next hk =>
    split at hpick
    · cases hpick
    · next bestStates hbs =>
      split at hpick
      · cases hpick
      · split at hpick
        · cases hpick
        · next nb hidx =>
          simp only [Option.some.injEq, Prod.mk.injEq] at hpick
          obtain ⟨ht, hc, hn, _⟩ := hpick
          subst hn
          have h0 := countSafe_nonneg v.current
          have hle := countSafe_le v.current
          have hlt : countSafe v.current < 10 * (N : Int) := by omega
          refine ⟨?_, hc.symm, ?_⟩
          · rw [← ht, Int.tdiv_eq_zero_of_lt h0 hlt]
            exact wrapInt_zero
          · obtain ⟨nb0, hnb0, rfl⟩ := @mem_GetBestStates_neighbors N
              (withFitness v.current) hsize hlen bestStates hbs nb (List.getElem?_mem hidx)
            obtain ⟨h1, h2, _, _⟩ := @rows_neighbor (fun _ => True) N
              (fun _ _ _ => trivial) (withFitness v.current) nb0 hsize hlen
              (fun _ _ => trivial) hnb0
            exact ⟨h1, h2, cacheOK_withFitness nb0⟩

/-- An execution of the body that does not panic leaves `current` a state of
`N` columns whose cache is right. -/
theorem AnnealBody_sizedOK (intn : Int → Nat → Nat) (accept : Int → Nat → Int → Bool)
    {N : Nat} {v v1 : AnnealVars} (h : sizedOK N v.current)
    (hbody : AnnealBody intn accept (10 * (N : Int)) v = some v1) :
    sizedOK N v1.current := by
  rw [AnnealBody_eq_of_pick] at hbody
  split at hbody
  · cases hbody
  · next temp current neighbor n hpick =>
    obtain ⟨htemp, _, hnb⟩ := AnnealPick_of_sizedOK intn h hpick
    by_cases hle : current.Fitness ≤ neighbor.Fitness
    · simp only [if_pos hle] at hbody
      by_cases hb : (if v.bestIsCurrent then current else v.best).Fitness ≤ neighbor.Fitness
      · simp only [if_pos hb] at hbody
        cases hbody
        exact hnb
      · simp only [if_neg hb] at hbody
        cases hbody
        exact hnb
    · simp only [if_neg hle, if_pos htemp] at hbody
      cases hbody

theorem AnnealVarsAt_sizedOK (intn : Int → Nat → Nat) (accept : Int → Nat → Int → Bool)
    {N : Nat} :
    ∀ (j : Nat) (v vj : AnnealVars), sizedOK N v.current →
      AnnealVarsAt intn accept (10 * (N : Int)) j v = some vj → sizedOK N vj.current := by
  intro j
  induction j with
  | zero =>
    intro v vj h hj
    cases hj
    exact h
  | succ j ih =>
    intro v vj h hj
    unfold AnnealVarsAt at hj
    split at hj
    · split at hj
      · cases hj
      · next v1 hbody => exact ih v1 vj (AnnealBody_sizedOK intn accept h hbody) hj
    · cases hj

/-- The invariant of the loop holds after any number of executions of the
body, from the all-ones board. -/
theorem AnnealVarsAt_inv (intn : Int → Nat → Nat) (accept : Int → Nat → Int → Bool)
    {N : Nat} :
    ∀ (j : Nat) (v vj : AnnealVars), AnnealInv N v →
      AnnealVarsAt intn accept (10 * (N : Int)) j v = some vj → AnnealInv N vj := by
  intro j
  induction j with
  | zero =>
    intro v vj h hj
    cases hj
    exact h
  | succ j ih =>
    intro v vj h hj
    unfold AnnealVarsAt at hj
    split at hj
    · next hcont =>
      obtain ⟨v1, hbody, hinv1, _, _⟩ := AnnealInv_step intn accept h hcont
      rw [hbody] at hj
      exact ih v1 vj hinv1 hj
    · cases hj

/-- Under the invariant the body is in its first branch: `AnnealPick` returns,
`temp` is 0 and the picked neighbour is not worse than `current`. -/
theorem AnnealPick_of_inv (intn : Int → Nat → Nat) {N : Nat} (hN : 1 ≤ N)
    {v : AnnealVars} (hinv : AnnealInv N v) :
    ∃ (current neighbor : NQueenState) (n : Nat),
      AnnealPick intn (10 * (N : Int)) v = some (0, current, neighbor, n) ∧
      current.Fitness ≤ neighbor.Fitness := by
  obtain ⟨hboard, hcache, _, _, _⟩ := hinv
  obtain ⟨bestStates, hbs, hlen, hpick⟩ := pick_best_neighbor hN hboard
  have hlt : intn v.k bestStates.length % bestStates.length < bestStates.length :=
    Nat.mod_lt _ (Nat.pos_of_ne_zero hlen)
  have hidx := List.getElem?_eq_getElem hlt
  obtain ⟨_, hfit, hle⟩ := hpick _ _ hidx
  have hnbrs : (withFitness v.current).GetNeighbors = v.current.GetNeighbors := rfl
  have hkmax : (10 * (N : Int)) ≠ 0 := by omega
  have htemp : wrapInt ((countSafe v.current).tdiv (10 * (N : Int))) = 0 := by
    have h0 := countSafe_nonneg v.current
    have h1 := countSafe_le v.current
    rw [Int.tdiv_eq_zero_of_lt h0 (by rw [hboard.2.1] at h1; omega)]
    exact wrapInt_zero
  refine ⟨withFitness v.current,
    bestStates[intn v.k bestStates.length % bestStates.length], bestStates.length, ?_, ?_⟩
  · unfold AnnealPick
    rw [GetFitness_of_cacheOK _ hcache]
    simp only [hkmax, if_false, hnbrs, hbs, hlen, hidx, htemp]
  · show countSafe v.current ≤ _
    rw [hfit]
    exact hle

/-! ## Further claims on simulated annealing -/

/-- The exit of the annealing loop from the all-ones board: the invariant
holds, `k` has not passed `10 * N`, and `current` is a solution unless `k`
has reached `10 * N`. -/
theorem Anneal_allOnes_exit (N : Nat) (intn : Int → Nat → Nat)
    (accept : Int → Nat → Int → Bool) (fuel : Nat) (hfuel : 10 * N ≤ fuel) :
    ∃ vf, AnnealRun intn accept fuel (allOnes N) = .returned vf ∧ AnnealInv N vf ∧
      vf.k ≤ 10 * (N : Int) ∧
      (vf.k ≠ 10 * (N : Int) → vf.current.IsSolution = some true) := by
  have hinit := AnnealInv_init N
  obtain ⟨vf, hvf, hkf⟩ := AnnealLoop_returns intn accept fuel (AnnealInit (allOnes N)) hinit
    (by show (0 : Int) ≤ 10 * (N : Int); omega)
    (by show (10 * (N : Int) - 0).toNat ≤ fuel; omega)
  obtain ⟨hinvf, _, _⟩ := AnnealLoop_returned_inv intn accept fuel _ vf hinit hvf
  obtain ⟨n, _, _, hstop⟩ := AnnealLoop_returned_at intn accept _ fuel _ vf hvf
  refine ⟨vf, by rw [AnnealRun_allOnes]; exact hvf, hinvf, hkf, ?_⟩
  intro hk
  unfold AnnealContinue at hstop
  split at hstop
  · cases hstop
  · next hsol => exact hsol
  · simp only [Option.some.injEq, decide_eq_false_iff_not] at hstop
    omega

/-- C12 (as amended).  From the all-ones board of any size, for every
generator and after any number of iterations, an execution of the loop body
computes `temp == 0` but picks a neighbour that is not worse than `current`:
it takes the first branch, does not panic, and never evaluates
`neighbor.Fitness / temp`. -/
theorem Annealing_takes_first_branch (N : Nat) (intn : Int → Nat → Nat)
    (accept : Int → Nat → Int → Bool) (j : Nat) (vj : AnnealVars)
    (hj : AnnealRunAt intn accept (allOnes N) j = some vj)
    (hcont : AnnealContinue (10 * (N : Int)) vj = some true) :
    (∃ (current neighbor : NQueenState) (n : Nat),
      AnnealPick intn (10 * (N : Int)) vj = some (0, current, neighbor, n) ∧
      current.Fitness ≤ neighbor.Fitness) ∧
    (∃ v1, AnnealBody intn accept (10 * (N : Int)) vj = some v1) ∧
    ¬ AnnealDividesByZero intn (10 * (N : Int)) vj := by
  rw [AnnealRunAt_allOnes] at hj
  have hinv := AnnealVarsAt_inv intn accept j _ vj (AnnealInv_init N) hj
  have hk := AnnealContinue_lt _ hcont
  have hk0 : 0 ≤ vj.k := hinv.2.2.2.2
  have hN : 1 ≤ N := by omega
  obtain ⟨current, neighbor, n, hpick, hle⟩ := AnnealPick_of_inv intn hN hinv
  obtain ⟨v1, hbody, _⟩ := AnnealInv_step intn accept hinv hcont
  refine ⟨⟨current, neighbor, n, hpick, hle⟩, ⟨v1, hbody⟩, ?_⟩
  rintro ⟨temp, current1, neighbor1, n1, hpick1, hworse, _⟩
  rw [hpick] at hpick1
  simp only [Option.some.injEq, Prod.mk.injEq] at hpick1
  obtain ⟨_, hc, hn, _⟩ := hpick1
  subst hc hn
  exact hworse hle

/-- C12, witness: the first iteration on the all-ones board of size 2. -/
theorem Annealing_takes_first_branch_witness :
    (∃ (current neighbor : NQueenState) (n : Nat),
      AnnealPick (fun _ _ => 0) (10 * ((2 : Nat) : Int)) (AnnealInit (allOnes 2)) =
        some (0, current, neighbor, n) ∧
      current.Fitness ≤ neighbor.Fitness) ∧
    (∃ v1, AnnealBody (fun _ _ => 0) (fun _ _ _ => true) (10 * ((2 : Nat) : Int))
      (AnnealInit (allOnes 2)) = some v1) ∧
    ¬ AnnealDividesByZero (fun _ _ => 0) (10 * ((2 : Nat) : Int)) (AnnealInit (allOnes 2)) :=
  Annealing_takes_first_branch 2 (fun _ _ => 0) (fun _ _ _ => true) 0
    (AnnealInit (allOnes 2)) (by decide) (by decide)

/-- C12, refutation of the claim as stated: there is no board size `N ≥ 1`,
generator and number of iterations after which the run from the all-ones
board enters the loop body and takes the strictly-worse-neighbour branch with
`temp == 0`. -/
theorem Annealing_division_by_zero_unreachable :
    ¬ ∃ (N : Nat) (intn : Int → Nat → Nat) (accept : Int → Nat → Int → Bool)
        (j : Nat) (vj : AnnealVars),
      1 ≤ N ∧ AnnealRunAt intn accept (allOnes N) j = some vj ∧
      AnnealContinue (10 * (N : Int)) vj = some true ∧
      AnnealDividesByZero intn (10 * (N : Int)) vj := by
  rintro ⟨N, intn, accept, j, vj, hN, hj, _, temp, current1, neighbor1, n1, hpick1, hworse, _⟩
  rw [AnnealRunAt_allOnes] at hj
  have hinv := AnnealVarsAt_inv intn accept j _ vj (AnnealInv_init N) hj
  obtain ⟨current, neighbor, n, hpick, hle⟩ := AnnealPick_of_inv intn hN hinv
  rw [hpick] at hpick1
  simp only [Option.some.injEq, Prod.mk.injEq] at hpick1
  obtain ⟨_, hc, hn, _⟩ := hpick1
  subst hc hn
  exact hworse hle

/-- For `N = 4`, with fuel for 40 iterations and for every generator,
`SimulatedAnnelingAlgorithm` started from the all-ones board returns a state,
and this state satisfies `IsSolution()` whenever the loop was left before its
40th iteration. -/
theorem Annealing_size_four_solution_unless_exhausted (intn : Int → Nat → Nat)
    (accept : Int → Nat → Int → Bool) (fuel : Nat) (hfuel : 40 ≤ fuel) :
    ∃ vf : AnnealVars,
      AnnealRun intn accept fuel (allOnes 4) = .returned vf ∧
      SimulatedAnnelingAlgorithm intn accept fuel (allOnes 4) = .returned vf.best ∧
      vf.k ≤ 40 ∧
      (vf.k < 40 → vf.best.IsSolution = some true) := by
  obtain ⟨vf, hrun, hinv, hk, hsol⟩ := Anneal_allOnes_exit 4 intn accept fuel (by omega)
  refine ⟨vf, hrun, SimulatedAnnelingAlgorithm_of_run _ _ _ _ _ hrun, by omega, ?_⟩
  intro hlt
  rw [hinv.2.2.1]
  exact hsol (by omega)

set_option maxRecDepth 100000 in
/-- The state returned for `N = 4` depends on the draws: for the value of the
generator parameter that picks the second of the best neighbours in every
iteration, the run from `[1, 1, 1, 1]` uses all 40 iterations and returns
`[4, 1, 3, 1]`.  This is a fact about the parameter of the embedding; the
generator of the source is `math/rand` seeded with `k`. -/
theorem Annealing_size_four_second_pick :
    SimulatedAnnelingAlgorithm (fun _ _ => 1) (fun _ _ _ => true) 40 (allOnes 4) =
      .returned ⟨[4, 1, 3, 1], 4, 3⟩ ∧
    (NQueenState.mk [4, 1, 3, 1] 4 3).IsSolution = some false := by
  decide

/-- An execution of the loop body that takes the first branch and moves
`best` along with `current`. -/
theorem AnnealBody_of_pick_better (intn : Int → Nat → Nat)
    (accept : Int → Nat → Int → Bool) (kmax : Int) (v : AnnealVars) (fit : Int)
    (current neighbor : NQueenState) (bestStates : List NQueenState)
    (hfit : v.current.GetFitness = some (fit, current)) (hk : kmax ≠ 0)
    (hbs : GetBestStates current.GetNeighbors = some bestStates)
    (hlen : bestStates.length ≠ 0)
    (hidx : bestStates[intn v.k bestStates.length % bestStates.length]? = some neighbor)
    (h1 : current.Fitness ≤ neighbor.Fitness)
    (h2 : (if v.bestIsCurrent then current else v.best).Fitness ≤ neighbor.Fitness) :
    AnnealBody intn accept kmax v =
      some { current := neighbor, best := neighbor, bestIsCurrent := true, k := v.k + 1 } := by
  unfold AnnealBody
  simp only [hfit, hk, if_false, hbs, hlen, hidx, if_pos h1, if_pos h2]

/-- A loop entered with its condition false returns at once. -/
theorem AnnealLoop_of_stop (intn : Int → Nat → Nat) (accept : Int → Nat → Int → Bool)
    (kmax : Int) (fuel : Nat) (v : AnnealVars)
    (h : AnnealContinue kmax v = some false) :
    AnnealLoop intn accept kmax fuel v = .returned v := by
  cases fuel <;> simp only [AnnealLoop, h]

/-- One turn of the loop whose condition holds and whose body returns. -/
theorem AnnealLoop_of_step (intn : Int → Nat → Nat) (accept : Int → Nat → Int → Bool)
    (kmax : Int) (fuel : Nat) (v v1 : AnnealVars)
    (hc : AnnealContinue kmax v = some true)
    (hb : AnnealBody intn accept kmax v = some v1) :
    AnnealLoop intn accept kmax (fuel + 1) v = AnnealLoop intn accept kmax fuel v1 := by
  simp only [AnnealLoop, hc, hb]

/-- The run for `N = 4` when the draw for seed 0 selects the fifth of the five
best neighbours and the draw for seed 1 the second of the two best neighbours:
after three iterations the loop is left on `[3, 1, 4, 2]`. -/
theorem AnnealRun_size_four_draws (intn : Int → Nat → Nat)
    (accept : Int → Nat → Int → Bool) (fuel : Nat)
    (h0 : intn 0 5 % 5 = 4) (h1 : intn 1 2 % 2 = 1) :
    AnnealRun intn accept (fuel + 3) (allOnes 4) =
      .returned { current := ⟨[3, 1, 4, 2], 4, 4⟩, best := ⟨[3, 1, 4, 2], 4, 4⟩,
                  bestIsCurrent := true, k := 3 } := by
  have hb0 : AnnealBody intn accept 40 (AnnealInit (allOnes 4)) =
      some { current := ⟨[1, 1, 4, 1], 4, 2⟩, best := ⟨[1, 1, 4, 1], 4, 2⟩,
             bestIsCurrent := true, k := 1 } :=
    AnnealBody_of_pick_better intn accept 40 (AnnealInit (allOnes 4)) 1
      ⟨[1, 1, 1, 1], 4, 1⟩ ⟨[1, 1, 4, 1], 4, 2⟩
      [⟨[3, 1, 1, 1], 4, 2⟩, ⟨[4, 1, 1, 1], 4, 2⟩, ⟨[1, 3, 1, 1], 4, 2⟩,
        ⟨[1, 4, 1, 1], 4, 2⟩, ⟨[1, 1, 4, 1], 4, 2⟩]
      (by decide) (by decide) (by decide) (by decide)
      (by
        show ([⟨[3, 1, 1, 1], 4, 2⟩, ⟨[4, 1, 1, 1], 4, 2⟩, ⟨[1, 3, 1, 1], 4, 2⟩,
          ⟨[1, 4, 1, 1], 4, 2⟩, ⟨[1, 1, 4, 1], 4, 2⟩] : List NQueenState)[intn 0 5 % 5]? = _
        rw [h0]
        rfl)
      (by decide) (by decide)
  have hb1 : AnnealBody intn accept 40
      { current := ⟨[1, 1, 4, 1], 4, 2⟩, best := ⟨[1, 1, 4, 1], 4, 2⟩,
        bestIsCurrent := true, k := 1 } =
      some { current := ⟨[1, 1, 4, 2], 4, 3⟩, best := ⟨[1, 1, 4, 2], 4, 3⟩,
             bestIsCurrent := true, k := 2 } :=
    AnnealBody_of_pick_better intn accept 40 _ 2
      ⟨[1, 1, 4, 1], 4, 2⟩ ⟨[1, 1, 4, 2], 4, 3⟩
      [⟨[3, 1, 4, 1], 4, 3⟩, ⟨[1, 1, 4, 2], 4, 3⟩]
      (by decide) (by decide) (by decide) (by decide)
      (by
        show ([⟨[3, 1, 4, 1], 4, 3⟩, ⟨[1, 1, 4, 2], 4, 3⟩] :
          List NQueenState)[intn 1 2 % 2]? = _
        rw [h1]
        rfl)
      (by decide) (by decide)
  have hb2 : AnnealBody intn accept 40
      { current := ⟨[1, 1, 4, 2], 4, 3⟩, best := ⟨[1, 1, 4, 2], 4, 3⟩,
        bestIsCurrent := true, k := 2 } =
      some { current := ⟨[3, 1, 4, 2], 4, 4⟩, best := ⟨[3, 1, 4, 2], 4, 4⟩,
             bestIsCurrent := true, k := 3 } :=
    AnnealBody_of_pick_better intn accept 40 _ 3
      ⟨[1, 1, 4, 2], 4, 3⟩ ⟨[3, 1, 4, 2], 4, 4⟩
      [⟨[3, 1, 4, 2], 4, 4⟩]
      (by decide) (by decide) (by decide) (by decide)
      (by
        show ([⟨[3, 1, 4, 2], 4, 4⟩] : List NQueenState)[intn 2 1 % 1]? = _
        rw [Nat.mod_one]
        rfl)
      (by decide) (by decide)
  show AnnealLoop intn accept 40 (fuel + 3) (AnnealInit (allOnes 4)) = _
  rw [AnnealLoop_of_step intn accept 40 (fuel + 2) _ _ (by decide) hb0,
    AnnealLoop_of_step intn accept 40 (fuel + 1) _ _ (by decide) hb1,
    AnnealLoop_of_step intn accept 40 fuel _ _ (by decide) hb2]
  exact AnnealLoop_of_stop intn accept 40 fuel _ (by decide)

/-- C14.  For `N = 4`, `SimulatedAnnelingAlgorithm` started from the all-ones
board `[1, 1, 1, 1]` returns a state for every generator, which satisfies
`IsSolution()` whenever the loop is left before its 40th iteration; and when
the draws of the generator seeded with 0 and with 1 select the fifth of the
five and the second of the two best-tied neighbours, the loop is left after
three iterations and the state returned is the solution `[3, 1, 4, 2]`. -/
theorem Annealing_size_four_returns_solution (intn : Int → Nat → Nat)
    (accept : Int → Nat → Int → Bool) :
    (∀ fuel : Nat, 40 ≤ fuel →
      ∃ vf : AnnealVars,
        AnnealRun intn accept fuel (allOnes 4) = .returned vf ∧
        SimulatedAnnelingAlgorithm intn accept fuel (allOnes 4) = .returned vf.best ∧
        (vf.k < 40 → vf.best.IsSolution = some true)) ∧
    (intn 0 5 % 5 = 4 → intn 1 2 % 2 = 1 →
      ∀ fuel : Nat, 3 ≤ fuel →
        SimulatedAnnelingAlgorithm intn accept fuel (allOnes 4) =
          .returned ⟨[3, 1, 4, 2], 4, 4⟩ ∧
        (NQueenState.mk [3, 1, 4, 2] 4 4).IsSolution = some true) := by
  constructor
  · intro fuel hfuel
    obtain ⟨vf, hrun, hinv, _, hsol⟩ := Anneal_allOnes_exit 4 intn accept fuel (by omega)
    refine ⟨vf, hrun, SimulatedAnnelingAlgorithm_of_run _ _ _ _ _ hrun, ?_⟩
    intro hlt
    rw [hinv.2.2.1]
    exact hsol (by omega)
  · intro h0 h1 fuel hfuel
    obtain ⟨f, rfl⟩ : ∃ f, fuel = f + 3 := ⟨fuel - 3, by omega⟩
    exact ⟨SimulatedAnnelingAlgorithm_of_run _ _ _ _ _
      (AnnealRun_size_four_draws intn accept f h0 h1), by decide⟩

/-- C14, witness: a generator that draws 4 for seed 0 and 1 afterwards, with
fuel for three iterations. -/
theorem Annealing_size_four_returns_solution_witness :
    SimulatedAnnelingAlgorithm (fun s _ => if s = 0 then 4 else 1) (fun _ _ _ => true) 3
        (allOnes 4) = .returned ⟨[3, 1, 4, 2], 4, 4⟩ ∧
    (NQueenState.mk [3, 1, 4, 2] 4 4).IsSolution = some true :=
  (Annealing_size_four_returns_solution (fun s _ => if s = 0 then 4 else 1)
    (fun _ _ _ => true)).2 (by decide) (by decide) 3 (by decide)

/-- C17.  In `SimulatedAnnelingAlgorithm` started from the all-ones board of
any size, for every generator, `best` and `current` are the same state after
every number of iterations; with fuel for `10 * N` iterations the state
returned is `current` at the exit of the loop, and it is a solution unless
exactly `10 * N` iterations were executed. -/
theorem Annealing_best_is_current (N : Nat) (intn : Int → Nat → Nat)
    (accept : Int → Nat → Int → Bool) :
    (∀ (j : Nat) (vj : AnnealVars), AnnealRunAt intn accept (allOnes N) j = some vj →
      vj.best = vj.current ∧ vj.bestIsCurrent = true) ∧
    (∀ fuel : Nat, 10 * N ≤ fuel →
      ∃ vf : AnnealVars,
        AnnealRun intn accept fuel (allOnes N) = .returned vf ∧
        SimulatedAnnelingAlgorithm intn accept fuel (allOnes N) = .returned vf.current ∧
        AnnealRunAt intn accept (allOnes N) vf.k.toNat = some vf ∧
        (vf.k ≠ 10 * (N : Int) → vf.current.IsSolution = some true)) := by
  constructor
  · intro j vj hj
    rw [AnnealRunAt_allOnes] at hj
    have hinv := AnnealVarsAt_inv intn accept j _ vj (AnnealInv_init N) hj
    exact ⟨hinv.2.2.1, hinv.2.2.2.1⟩
  · intro fuel hfuel
    obtain ⟨vf, hrun, hinv, _, hsol⟩ := Anneal_allOnes_exit N intn accept fuel hfuel
    have hret := SimulatedAnnelingAlgorithm_of_run _ _ _ _ _ hrun
    rw [hinv.2.2.1] at hret
    refine ⟨vf, hrun, hret, ?_, hsol⟩
    have hrun1 := hrun
    rw [AnnealRun_allOnes] at hrun1
    obtain ⟨n, _, hat, _⟩ := AnnealLoop_returned_at intn accept _ fuel _ vf hrun1
    have hk := (AnnealVarsAt_k intn accept _ n _ vf hat).1
    have hk0 : (AnnealInit (allOnes N)).k = 0 := rfl
    have hn : vf.k.toNat = n := by omega
    rw [hn, AnnealRunAt_allOnes]
    exact hat

/-- C17, witness: the board of size 2 with fuel for 20 iterations. -/
theorem Annealing_best_is_current_witness :
    ∃ vf : AnnealVars,
      AnnealRun (fun _ _ => 0) (fun _ _ _ => true) 20 (allOnes 2) = .returned vf ∧
      SimulatedAnnelingAlgorithm (fun _ _ => 0) (fun _ _ _ => true) 20 (allOnes 2) =
        .returned vf.current ∧
      AnnealRunAt (fun _ _ => 0) (fun _ _ _ => true) (allOnes 2) vf.k.toNat = some vf ∧
      (vf.k ≠ 10 * ((2 : Nat) : Int) → vf.current.IsSolution = some true) :=
  (Annealing_best_is_current 2 (fun _ _ => 0) (fun _ _ _ => true)).2 20 (by decide)

theorem sizedOK_init (initialState : List Int) :
    sizedOK initialState.length (AnnealInit initialState).current :=
  ⟨rfl, rfl, Or.inl rfl⟩

/-- Truncated division by a positive number gives 0 exactly on the numbers
strictly between its negative and itself. -/
theorem tdiv_eq_zero_iff_of_pos (a b : Int) (hb : 0 < b) :
    a.tdiv b = 0 ↔ (-b < a ∧ a < b) := by
  constructor
  · intro h
    by_contra hcon
    rcases Int.le_total 0 a with ha | ha
    · have hba : b ≤ a := by omega
      have h1 : (1 : Int) ≤ a / b := Int.le_ediv_of_mul_le hb (by omega)
      rw [Int.tdiv_eq_ediv ha (le_of_lt hb)] at h
      omega
    · have hba : b ≤ -a := by omega
      have h1 : (1 : Int) ≤ (-a) / b := Int.le_ediv_of_mul_le hb (by omega)
      have h2 : (-a).tdiv b = -a / b := Int.tdiv_eq_ediv (by omega) (le_of_lt hb)
      rw [Int.neg_tdiv, h] at h2
      omega
  · rintro ⟨h1, h2⟩
    rcases Int.le_total 0 a with ha | ha
    · exact Int.tdiv_eq_zero_of_lt ha h2
    · have h3 : (-a).tdiv b = 0 := Int.tdiv_eq_zero_of_lt (by omega) (by omega)
      rw [Int.neg_tdiv] at h3
      omega

/-- C19 (as amended).  For a board state of size `N ≥ 1`, `GetFitness()`
returns, and `temp = GetFitness() / (10 * N)` in integer division is 0 exactly
when the `Fitness` field lies strictly between `-10 * N` and `10 * N`, as it
does when it is zero (not yet computed) or a count between 0 and `N`; and in
every iteration of `SimulatedAnnelingAlgorithm`, from any initial board and
for every generator, the value of `temp` is 0, whatever `k` is. -/
theorem Annealing_temp_is_zero (Me : NQueenState)
    (hsize : Me.Size = Me.Positions.length) (hN : 1 ≤ Me.Positions.length) :
    (∃ (fit : Int) (Me1 : NQueenState),
      Me.GetFitness = some (fit, Me1) ∧
      (fit.tdiv (10 * Me.Size) = 0 ↔
        (-(10 * Me.Size) < Me.Fitness ∧ Me.Fitness < 10 * Me.Size)) ∧
      ((-(10 * Me.Size) < Me.Fitness ∧ Me.Fitness < 10 * Me.Size) →
        wrapInt (fit.tdiv (10 * Me.Size)) = 0) ∧
      ((0 ≤ Me.Fitness ∧ Me.Fitness ≤ Me.Size) →
        wrapInt (fit.tdiv (10 * Me.Size)) = 0)) ∧
    (∀ (initialState : List Int) (intn : Int → Nat → Nat)
      (accept : Int → Nat → Int → Bool) (j : Nat) (vj : AnnealVars) (temp : Int)
      (current neighbor : NQueenState) (n : Nat),
      AnnealRunAt intn accept initialState j = some vj →
      AnnealPick intn (10 * (NewNQueenState initialState).Size) vj =
        some (temp, current, neighbor, n) →
      temp = 0) := by
  have hpos : (0 : Int) < 10 * Me.Size := by omega
  constructor
  · by_cases hz : Me.Fitness = 0
    · have h0 := countSafe_nonneg Me
      have h1 := countSafe_le Me
      have hd : (countSafe Me).tdiv (10 * Me.Size) = 0 :=
        Int.tdiv_eq_zero_of_lt h0 (by omega)
      refine ⟨_, _, GetFitness_fresh Me hz, ?_, ?_, ?_⟩
      · rw [hd, hz]
        constructor
        · intro _
          omega
        · intro _
          rfl
      · intro _
        rw [hd]
        exact wrapInt_zero
      · intro _
        rw [hd]
        exact wrapInt_zero
    · have hiff := tdiv_eq_zero_iff_of_pos Me.Fitness (10 * Me.Size) hpos
      refine ⟨_, _, GetFitness_of_ne_zero Me hz, hiff, ?_, ?_⟩
      · intro hc
        rw [hiff.mpr hc]
        exact wrapInt_zero
      · intro hc
        rw [hiff.mpr (by omega)]
        exact wrapInt_zero
  · intro initialState intn accept j vj temp current neighbor n hj hpick
    have hsized := AnnealVarsAt_sizedOK intn accept j _ vj (sizedOK_init initialState) hj
    exact (AnnealPick_of_sizedOK intn hsized hpick).1

/-- C19, witness: the all-ones board of size 4 with its fitness cached. -/
theorem Annealing_temp_is_zero_witness :
    (∃ (fit : Int) (Me1 : NQueenState),
      (NQueenState.mk [1, 1, 1, 1] 4 1).GetFitness = some (fit, Me1) ∧
      (fit.tdiv (10 * (NQueenState.mk [1, 1, 1, 1] 4 1).Size) = 0 ↔
        (-(10 * (NQueenState.mk [1, 1, 1, 1] 4 1).Size) <
            (NQueenState.mk [1, 1, 1, 1] 4 1).Fitness ∧
          (NQueenState.mk [1, 1, 1, 1] 4 1).Fitness <
            10 * (NQueenState.mk [1, 1, 1, 1] 4 1).Size)) ∧
      ((-(10 * (NQueenState.mk [1, 1, 1, 1] 4 1).Size) <
            (NQueenState.mk [1, 1, 1, 1] 4 1).Fitness ∧
          (NQueenState.mk [1, 1, 1, 1] 4 1).Fitness <
            10 * (NQueenState.mk [1, 1, 1, 1] 4 1).Size) →
        wrapInt (fit.tdiv (10 * (NQueenState.mk [1, 1, 1, 1] 4 1).Size)) = 0) ∧
      ((0 ≤ (NQueenState.mk [1, 1, 1, 1] 4 1).Fitness ∧
          (NQueenState.mk [1, 1, 1, 1] 4 1).Fitness ≤
            (NQueenState.mk [1, 1, 1, 1] 4 1).Size) →
        wrapInt (fit.tdiv (10 * (NQueenState.mk [1, 1, 1, 1] 4 1).Size)) = 0)) ∧
    (∀ (initialState : List Int) (intn : Int → Nat → Nat)
      (accept : Int → Nat → Int → Bool) (j : Nat) (vj : AnnealVars) (temp : Int)
      (current neighbor : NQueenState) (n : Nat),
      AnnealRunAt intn accept initialState j = some vj →
      AnnealPick intn (10 * (NewNQueenState initialState).Size) vj =
        some (temp, current, neighbor, n) →
      temp = 0) :=
  Annealing_temp_is_zero ⟨[1, 1, 1, 1], 4, 1⟩ (by decide) (by decide)

/-- C19, counterexample to the claim as stated (every board state of size
`N ≥ 1`): on the state with positions `[1, 1, 1, 1]`, size 4 and the `Fitness`
field at 45, `GetFitness()` returns the cached 45 and `temp = 45 / 40` is 1. -/
theorem Annealing_temp_nonzero_on_large_cache :
    (NQueenState.mk [1, 1, 1, 1] 4 45).GetFitness = some (45, ⟨[1, 1, 1, 1], 4, 45⟩) ∧
    (45 : Int).tdiv (10 * (NQueenState.mk [1, 1, 1, 1] 4 45).Size) = 1 ∧
    wrapInt ((45 : Int).tdiv (10 * (NQueenState.mk [1, 1, 1, 1] 4 45).Size)) = 1 := by
  decide

end NQueen
